import Mathlib

/-!
# small_bitcask: record codec, append-only file and store

A shallow embedding of the Go package `bitcask` (`Record.go`, `DBFile.go`,
`db.go`).  Go values are modelled as follows.

* `[]byte` is `List UInt8`; a nil slice and an empty slice are both `[]`.
* `uint32` and `uint16` values are natural numbers; every arithmetic
  operation the source performs in `uint32` is reduced modulo `2 ^ 32`
  explicitly.  `int64` values are integers.
* A Go function that may panic returns `Except Panic _`; a Go `error` result
  is an `Option GoError` (`none` is the nil error); a pointer result that may
  be nil is an `Option`.
* Buffers created by `make` have capacity equal to their length.
* `int64` offsets are unbounded integers: no log reaches `2 ^ 63` bytes.
* The file system is a table of names and a table of file contents; an open
  `*os.File` is a handle on one entry of the contents table.
* The mutex `mu` is not modelled: every operation runs alone, and
  `MergeWithPut` is the one run in which a second goroutine takes the lock
  between the unlocked and the locked part of `Merge`.
-/

namespace Bitcask

/-! ## Go runtime: panics, errors, slices -/

/-- Run-time panics of the Go runtime that the package can raise. -/
inductive Panic where
  /-- slice bounds out of range -/
  | sliceBounds
  /-- index out of range -/
  | indexRange
  /-- nil pointer dereference -/
  | nilDeref
  /-- interface conversion: the dynamic type is not the asserted type -/
  | typeAssert
  deriving DecidableEq, Repr

/-- Modelled from the spec: the error values `ErrKeyNotFound` and
`ErrInvalidDBFile` are declared in a file of the package that is not among the
sources (section 7 names them KeyNotFound and InvalidState).  The remaining
constructors are the errors of the Go standard library that the package
observes: `io.EOF` and the errors of package `os`. -/
inductive GoError where
  | EOF
  | ErrKeyNotFound
  | ErrInvalidDBFile
  /-- `os.ErrClosed`: the file was already closed -/
  | closed
  /-- a negative offset was passed to `ReadAt` or `WriteAt` -/
  | negativeOffset
  /-- the device reported a failure during a write -/
  | writeFailed
  /-- `EISDIR`: the path names a directory -/
  | isDirectory
  /-- `ENOENT`: no such file or directory -/
  | notExist
  /-- `ENOTDIR`: a path component is not a directory -/
  | notDirectory
  /-- `ENOTEMPTY`: the directory is not empty -/
  | notEmpty
  deriving DecidableEq, Repr

abbrev Byte := UInt8

/-- The slice expression `buf[lo:hi]` panics unless `lo ≤ hi ≤ cap(buf)`. -/
def checkSlice (cap lo hi : Nat) : Except Panic Unit :=
  if lo ≤ hi ∧ hi ≤ cap then pure () else throw Panic.sliceBounds

/-- Overwrite `buf` from position `pos` on with the bytes `src` (the caller
has checked that they fit). -/
def storeAt (buf : List Byte) (pos : Nat) (src : List Byte) : List Byte :=
  buf.take pos ++ src ++ buf.drop (pos + src.length)

/-- The four bytes `byte(v >> 24), byte(v >> 16), byte(v >> 8), byte(v)`. -/
def beBytes32 (v : Nat) : List Byte :=
  [UInt8.ofNat (v / 2 ^ 24), UInt8.ofNat (v / 2 ^ 16), UInt8.ofNat (v / 2 ^ 8), UInt8.ofNat v]

/-- The two bytes `byte(v >> 8), byte(v)`. -/
def beBytes16 (v : Nat) : List Byte :=
  [UInt8.ofNat (v / 2 ^ 8), UInt8.ofNat v]

/-- The number a byte sequence denotes when read most significant byte
first. -/
def beValue (bs : List Byte) : Nat :=
  bs.foldl (fun acc b => acc * 256 + b.toNat) 0

/-- `binary.BigEndian.PutUint32(buf[lo:hi], v)`. -/
def PutUint32 (buf : List Byte) (lo hi : Nat) (v : Nat) : Except Panic (List Byte) := do
  checkSlice buf.length lo hi
  if hi - lo < 4 then throw Panic.indexRange
  pure (storeAt buf lo (beBytes32 v))

/-- `binary.BigEndian.PutUint16(buf[lo:hi], v)`. -/
def PutUint16 (buf : List Byte) (lo hi : Nat) (v : Nat) : Except Panic (List Byte) := do
  checkSlice buf.length lo hi
  if hi - lo < 2 then throw Panic.indexRange
  pure (storeAt buf lo (beBytes16 v))

/-- `binary.BigEndian.Uint32(buf[lo:hi])`. -/
def Uint32 (buf : List Byte) (lo hi : Nat) : Except Panic Nat := do
  checkSlice buf.length lo hi
  if hi - lo < 4 then throw Panic.indexRange
  pure (beValue ((buf.drop lo).take 4))

/-- `binary.BigEndian.Uint16(buf[lo:hi])`. -/
def Uint16 (buf : List Byte) (lo hi : Nat) : Except Panic Nat := do
  checkSlice buf.length lo hi
  if hi - lo < 2 then throw Panic.indexRange
  pure (beValue ((buf.drop lo).take 2))

/-- `copy(buf[lo:hi], src)`: copies `min (hi - lo) (len src)` bytes. -/
def copyInto (buf : List Byte) (lo hi : Nat) (src : List Byte) : Except Panic (List Byte) := do
  checkSlice buf.length lo hi
  pure (storeAt buf lo (src.take (hi - lo)))

/-- Dereference of a pointer that may be nil. -/
def deref {α : Type} : Option α → Except Panic α
  | some a => pure a
  | none => throw Panic.nilDeref

/-! ## Record.go -/

structure Record where
  Key : List Byte
  Value : List Byte
  KeySize : Nat
  ValueSize : Nat
  Mark : Nat
  deriving DecidableEq, Repr

def entryHeaderSize : Nat := 10

def PUT : Nat := 0

def DEL : Nat := 1

/-- `int64(entryHeaderSize + r.KeySize + r.ValueSize)`: the untyped constant
takes the type `uint32` of the other operands, so the sum is computed in
`uint32` and converted afterwards. -/
def Record.GetSize (r : Record) : Int :=
  (((entryHeaderSize + r.KeySize + r.ValueSize) % 2 ^ 32 : Nat) : Int)

def Record.Encode (r : Record) : Except Panic (List Byte × Option GoError) := do
  let buf : List Byte := List.replicate r.GetSize.toNat 0
  let buf ← PutUint32 buf 0 4 r.KeySize
  let buf ← PutUint32 buf 4 8 r.ValueSize
  let buf ← PutUint16 buf 8 10 r.Mark
  let buf ← copyInto buf entryHeaderSize ((entryHeaderSize + r.KeySize) % 2 ^ 32) r.Key
  let buf ← copyInto buf ((entryHeaderSize + r.KeySize) % 2 ^ 32) buf.length r.Value
  pure (buf, none)

def NewRecord (key value : List Byte) (mark : Nat) : Record :=
  { Key := key
    Value := value
    KeySize := key.length % 2 ^ 32
    ValueSize := value.length % 2 ^ 32
    Mark := mark }

def Decode (buf : List Byte) : Except Panic (Option Record × Option GoError) := do
  let ks ← Uint32 buf 0 4
  let vs ← Uint32 buf 4 8
  let mark ← Uint16 buf 8 10
  pure (some { Key := [], Value := [], KeySize := ks, ValueSize := vs, Mark := mark }, none)

/-- A record is well formed when its size fields are the lengths of its key
and value and its fields fit their machine types. -/
def Record.WellFormed (r : Record) : Prop :=
  r.KeySize = r.Key.length ∧ r.ValueSize = r.Value.length ∧
    r.KeySize < 2 ^ 32 ∧ r.ValueSize < 2 ^ 32 ∧ r.Mark < 2 ^ 16

instance (r : Record) : Decidable r.WellFormed := by
  unfold Record.WellFormed; infer_instance

/-- The bytes `Encode` lays out for a record: header, key, value. -/
def Record.layout (r : Record) : List Byte :=
  beBytes32 r.KeySize ++ beBytes32 r.ValueSize ++ beBytes16 r.Mark ++ r.Key ++ r.Value

/-! ## Package os: a small file system -/

/-- A path is the list of its components below the root. -/
abbrev Path := List String

/-- What a name of the file system refers to. -/
inductive Node where
  | dir
  | file (ino : Nat)
  deriving DecidableEq, Repr

/-- The file system: the names, the contents of the files (a file keeps its
content while a handle is open, also after its name is removed), and the
outcomes the device will give to the coming `WriteAt` calls: `none` (or an
exhausted list) lets the call write everything, `some n` makes it fail
after at most `n` bytes. -/
structure FS where
  names : List (Path × Node)
  /-- the content of each file, by file number -/
  inodes : Nat → List Byte
  /-- the number the next created file gets -/
  nextIno : Nat
  wfaults : List (Option Nat)

/-- The node a path names; the root is a directory. -/
def FS.lookup (fs : FS) (p : Path) : Option Node :=
  if p = [] then some Node.dir else fs.names.lookup p

def FS.content (fs : FS) (ino : Nat) : List Byte :=
  fs.inodes ino

/-- An open file: `*os.File`. -/
structure OsFile where
  name : Path
  ino : Nat
  closed : Bool
  deriving DecidableEq, Repr

/-- `filepath.Join(dir, name)` for a single component `name`. -/
def Join (dir : Path) (name : String) : Path :=
  dir ++ [name]

/-- `os.OpenFile(name, os.O_CREATE|os.O_RDWR, 0644)`. -/
def OpenFile (fs : FS) (name : Path) : FS × Option OsFile × Option GoError :=
  match fs.lookup name with
  | some Node.dir => (fs, none, some GoError.isDirectory)
  | some (Node.file ino) => (fs, some { name := name, ino := ino, closed := false }, none)
  | none =>
    match fs.lookup name.dropLast with
    | some Node.dir =>
      ({ fs with names := (name, Node.file fs.nextIno) :: fs.names
                 inodes := fun i => if i = fs.nextIno then [] else fs.inodes i
                 nextIno := fs.nextIno + 1 },
        some { name := name, ino := fs.nextIno, closed := false }, none)
    | some (Node.file _) => (fs, none, some GoError.notDirectory)
    | none => (fs, none, some GoError.notExist)

/-- `os.Stat(name)`, reduced to the size it reports. -/
def Stat (fs : FS) (name : Path) : Option Int × Option GoError :=
  match fs.lookup name with
  | some Node.dir => (some 0, none)
  | some (Node.file ino) => (some ((fs.content ino).length : Int), none)
  | none => (none, some GoError.notExist)

/-- `file.Stat()`, reduced to the size it reports. -/
def OsFile.Stat (fs : FS) (f : OsFile) : Option Int × Option GoError :=
  if f.closed then (none, some GoError.closed)
  else (some ((fs.content f.ino).length : Int), none)

/-- `file.Close()`. -/
def OsFile.Close (f : OsFile) : OsFile × Option GoError :=
  if f.closed then (f, some GoError.closed) else ({ f with closed := true }, none)

/-- `os.Remove(name)`: removes a file or an empty directory. -/
def Remove (fs : FS) (name : Path) : FS × Option GoError :=
  match fs.lookup name with
  | none => (fs, some GoError.notExist)
  | some (Node.file _) => ({ fs with names := fs.names.filter (fun e => e.1 ≠ name) }, none)
  | some Node.dir =>
    if name = [] ∨ fs.names.any (fun e => e.1 ≠ [] ∧ e.1.dropLast = name) then
      (fs, some GoError.notEmpty)
    else ({ fs with names := fs.names.filter (fun e => e.1 ≠ name) }, none)

/-- `os.Rename(old, new)` for a regular file `old`; the package renames
nothing else, and the model rejects a directory. -/
def Rename (fs : FS) (old new : Path) : FS × Option GoError :=
  match fs.lookup old with
  | none => (fs, some GoError.notExist)
  | some Node.dir => (fs, some GoError.isDirectory)
  | some (Node.file ino) =>
    match fs.lookup new with
    | some Node.dir => (fs, some GoError.isDirectory)
    | some (Node.file _) =>
      ({ fs with names :=
          (new, Node.file ino) :: fs.names.filter (fun e => e.1 ≠ old ∧ e.1 ≠ new) }, none)
    | none =>
      match fs.lookup new.dropLast with
      | some Node.dir =>
        ({ fs with names :=
            (new, Node.file ino) :: fs.names.filter (fun e => e.1 ≠ old ∧ e.1 ≠ new) }, none)
      | some (Node.file _) => (fs, some GoError.notDirectory)
      | none => (fs, some GoError.notExist)

/-- The loop of `os.MkdirAll`: creates the directories of `rest` below
`done`, one after the other. -/
def mkdirAllFrom (fs : FS) (done : Path) : List String → FS × Option GoError
  | [] => (fs, none)
  | c :: rest =>
    match fs.lookup (done ++ [c]) with
    | some Node.dir => mkdirAllFrom fs (done ++ [c]) rest
    | some (Node.file _) => (fs, some GoError.notDirectory)
    | none => mkdirAllFrom { fs with names := (done ++ [c], Node.dir) :: fs.names } (done ++ [c]) rest

/-- `os.MkdirAll(path, os.ModePerm)`. -/
def MkdirAll (fs : FS) (path : Path) : FS × Option GoError :=
  mkdirAllFrom fs [] path

/-- `filepath.Abs(path)`: the paths of the model are absolute already. -/
def Abs (path : Path) : Path × Option GoError :=
  (path, none)

/-- `file.ReadAt(b, off)`: fills `b` from offset `off`; when the file ends
before `b` is full the error is `io.EOF`.  Returns the buffer, the number of
bytes read and the error. -/
def OsFile.ReadAt (fs : FS) (f : OsFile) (b : List Byte) (off : Int) :
    List Byte × Nat × Option GoError :=
  if f.closed then (b, 0, some GoError.closed)
  else if off < 0 then (b, 0, some GoError.negativeOffset)
  else
    let got := ((fs.content f.ino).drop off.toNat).take b.length
    (got ++ b.drop got.length, got.length,
      if got.length < b.length then some GoError.EOF else none)

/-- The content of a file after `b` is written at position `pos`; a gap
between the old end and `pos` reads as zero bytes. -/
def writeBytes (data : List Byte) (pos : Nat) (b : List Byte) : List Byte :=
  (data ++ List.replicate (pos - data.length) 0).take pos ++ b ++ data.drop (pos + b.length)

def FS.setContent (fs : FS) (ino : Nat) (data : List Byte) : FS :=
  { fs with inodes := fun i => if i = ino then data else fs.inodes i }

/-- `file.WriteAt(b, off)`.  Returns the file system, the number of bytes
written and the error. -/
def OsFile.WriteAt (fs : FS) (f : OsFile) (b : List Byte) (off : Int) :
    FS × Nat × Option GoError :=
  if f.closed then (fs, 0, some GoError.closed)
  else if off < 0 then (fs, 0, some GoError.negativeOffset)
  else if b = [] then (fs, 0, none)
  else
    match fs.wfaults with
    | some n :: rest =>
      let part := b.take (min n (b.length - 1))
      ({ fs.setContent f.ino (writeBytes (fs.content f.ino) off.toNat part) with wfaults := rest },
        part.length, some GoError.writeFailed)
    | none :: rest =>
      ({ fs.setContent f.ino (writeBytes (fs.content f.ino) off.toNat b) with wfaults := rest },
        b.length, none)
    | [] => (fs.setContent f.ino (writeBytes (fs.content f.ino) off.toNat b), b.length, none)

/-! ## DBFile.go -/

def BitCaskFileName : String := "minibitcask.data"

def MergeFileName : String := "minibitcask.data.merge"

/-- A value held by the `sync.Pool` as an `interface{}`: its dynamic type is
either `[]byte` or `*[]byte`. -/
inductive PoolItem where
  | slice (b : List Byte)
  | slicePtr (b : List Byte)
  deriving DecidableEq, Repr

/-- The `New` function both constructors give the pool:
`make([]byte, entryHeaderSize)`, a value of dynamic type `[]byte`. -/
def headerBufNew : PoolItem :=
  PoolItem.slice (List.replicate entryHeaderSize 0)

/-- `pool.Get()`: an item the pool holds, or the result of `New` when it
holds none. -/
def poolGet (pool : List PoolItem) : PoolItem × List PoolItem :=
  match pool with
  | [] => (headerBufNew, [])
  | item :: rest => (item, rest)

structure DBFile where
  file : OsFile
  Offset : Int
  /-- the items the pool holds -/
  HeaderBufPool : List PoolItem
  deriving DecidableEq, Repr

def NewDBFile (fs : FS) (filepath : Path) : FS × Option DBFile × Option GoError :=
  match OpenFile fs filepath with
  | (fs, some file, none) =>
    match file.Stat fs with
    | (some size, none) => (fs, some { file := file, Offset := size, HeaderBufPool := [] }, none)
    | (_, err) => (fs, none, err)
  | (fs, _, err) => (fs, none, err)

def CreateFile (fs : FS) (path : Path) : FS × Option DBFile × Option GoError :=
  NewDBFile fs (Join path BitCaskFileName)

def newInternal (fs : FS) (fileName : Path) : FS × Option DBFile × Option GoError :=
  match OpenFile fs fileName with
  | (fs, some file, none) =>
    match Stat fs fileName with
    | (some size, none) => (fs, some { file := file, Offset := size, HeaderBufPool := [] }, none)
    | (_, err) => (fs, none, err)
  | (fs, _, err) => (fs, none, err)

def NewMergeDBFile (fs : FS) (path : Path) : FS × Option DBFile × Option GoError :=
  newInternal fs (Join path MergeFileName)

/-- The payload reads of `DBFile.Read`: its statements after
`off += entryHeaderSize`, for the record that `r` points to and the offset
`off` of the first key byte. -/
def DBFile.readPayload (fs : FS) (p : DBFile) (r : Record) (off : Int) :
    Except Panic (Option Record × Option GoError) := do
  let mut r := r
  if r.KeySize > 0 then
    let (key, _, err) := p.file.ReadAt fs (List.replicate r.KeySize 0) off
    if err.isSome then return (none, err)
    r := { r with Key := key }
  let off := off + r.KeySize
  if r.ValueSize > 0 then
    let (value, _, err) := p.file.ReadAt fs (List.replicate r.ValueSize 0) off
    if err.isSome then return (none, err)
    r := { r with Value := value }
  return (some r, none)

/-- `DBFile.Read`.  The deferred `HeaderBufPool.Put(buf)` is applied right
after the header read: nothing else touches the pool before the function
returns.  The result `r` is the named result of the Go function, which no
statement assigns: it is nil where its fields are read. -/
def DBFile.Read (fs : FS) (p : DBFile) (off : Int) :
    Except Panic ((Option Record × Option GoError) × DBFile) := do
  let r : Option Record := none
  let (item, pool) := poolGet p.HeaderBufPool
  let buf ← match item with
    | PoolItem.slicePtr b => pure b
    | PoolItem.slice _ => throw Panic.typeAssert
  let (buf, _, err) := p.file.ReadAt fs buf off
  let p := { p with HeaderBufPool := PoolItem.slicePtr buf :: pool }
  if err.isSome then return ((none, err), p)
  let off := off + entryHeaderSize
  let record ← deref r
  let res ← p.readPayload fs record off
  return (res, p)

def DBFile.Write (fs : FS) (p : DBFile) (r : Record) :
    Except Panic (Option GoError × FS × DBFile) := do
  let (enc, err) ← r.Encode
  if err.isSome then return (err, fs, p)
  let (fs, _, err) := p.file.WriteAt fs enc p.Offset
  let p := { p with Offset := p.Offset + r.GetSize }
  return (err, fs, p)

/-! ## db.go -/

/-- The map `indexes`, `map[string]int64`: the package looks keys up, sets
and deletes them, and never iterates. -/
abbrev Index := List Byte → Option Int

def Index.empty : Index := fun _ => none

/-- `indexes[key] = off`. -/
def Index.set (m : Index) (key : List Byte) (off : Int) : Index :=
  fun k => if k = key then some off else m k

/-- `delete(indexes, key)`. -/
def Index.delete (m : Index) (key : List Byte) : Index :=
  fun k => if k = key then none else m k

structure MiniBitcask where
  indexes : Index
  dbFile : Option DBFile
  dirPath : Path

def MiniBitcask.exist (db : MiniBitcask) (key : List Byte) : Int × Option GoError :=
  match db.indexes key with
  | none => (0, some GoError.ErrKeyNotFound)
  | some offset => (offset, none)

/-- The loop of `loadIndexes` from `offset` on, for at most `fuel` records;
`none` when the fuel runs out before the loop ends. -/
def MiniBitcask.loadIndexesLoop (fs : FS) :
    Nat → MiniBitcask → Int → Except Panic (Option (Option GoError × MiniBitcask))
  | 0, _, _ => pure none
  | fuel + 1, m, offset => do
    let dbf ← deref m.dbFile
    let ((record, err), dbf) ← dbf.Read fs offset
    let m := { m with dbFile := some dbf }
    if err.isSome then
      if err = some GoError.EOF then return some (none, m)
      return some (err, m)
    let record ← deref record
    let m := { m with indexes := m.indexes.set record.Key offset }
    let m := if record.Mark = DEL then { m with indexes := m.indexes.delete record.Key } else m
    MiniBitcask.loadIndexesLoop fs fuel m (offset + record.GetSize)

def MiniBitcask.loadIndexes (fs : FS) (m : MiniBitcask) (fuel : Nat) :
    Except Panic (Option (Option GoError × MiniBitcask)) :=
  match m.dbFile with
  | none => pure (some (some GoError.ErrInvalidDBFile, m))
  | some _ => MiniBitcask.loadIndexesLoop fs fuel m 0

/-- `Open`, with `fuel` bounding the loop of `loadIndexes`; `none` when the
fuel runs out. -/
def Open (fs : FS) (dirPath : Path) (fuel : Nat) :
    Except Panic (Option (FS × Option MiniBitcask × Option GoError)) := do
  let (fs, err) :=
    if (Stat fs dirPath).2 = some GoError.notExist then MkdirAll fs dirPath else (fs, none)
  if err.isSome then return some (fs, none, err)
  let (dirAbsPath, err) := Abs dirPath
  if err.isSome then return some (fs, none, err)
  let (fs, dbFile, err) := NewDBFile fs dirAbsPath
  if err.isSome then return some (fs, none, err)
  let db : MiniBitcask := { indexes := Index.empty, dbFile := dbFile, dirPath := dirAbsPath }
  let some (err, db) ← db.loadIndexes fs fuel | return none
  if err.isSome then return some (fs, none, err)
  return some (fs, some db, none)

/-- The scan loop of `Merge`: collects in `validEntries` the records whose
offset is the one the index holds for their key. -/
def MiniBitcask.mergeScan (fs : FS) :
    Nat → MiniBitcask → Int → List Record →
      Except Panic (Option (Option GoError × MiniBitcask × List Record))
  | 0, _, _, _ => pure none
  | fuel + 1, db, offset, validEntries => do
    let dbf ← deref db.dbFile
    let ((e, err), dbf) ← dbf.Read fs offset
    let db := { db with dbFile := some dbf }
    if err.isSome then
      if err = some GoError.EOF then return some (none, db, validEntries)
      return some (err, db, validEntries)
    let e ← deref e
    let validEntries :=
      if db.indexes e.Key = some offset then validEntries ++ [e] else validEntries
    MiniBitcask.mergeScan fs fuel db (offset + e.GetSize) validEntries

/-- The loop of `Merge` that writes the valid entries to the merge file and
points the index at their new offsets; it stops at the first failed write. -/
def MiniBitcask.mergeWrite (fs : FS) (db : MiniBitcask) (mergeDBFile : DBFile) :
    List Record → Except Panic (Option GoError × FS × MiniBitcask × DBFile)
  | [] => pure (none, fs, db, mergeDBFile)
  | entry :: rest => do
    let writeOff := mergeDBFile.Offset
    let (err, fs, mergeDBFile) ← mergeDBFile.Write fs entry
    if err.isSome then return (err, fs, db, mergeDBFile)
    let db := { db with indexes := db.indexes.set entry.Key writeOff }
    MiniBitcask.mergeWrite fs db mergeDBFile rest

/-- The part of `Merge` that runs under `db.mu.Lock()`: the rewrite of the
valid entries into the merge file, the index updates and the swap of the
files.  The deferred `os.Remove(mergeDBFile.file.Name())` is applied at each
return. -/
def MiniBitcask.mergeLocked (fs : FS) (db : MiniBitcask) (mergeDBFile : DBFile)
    (validEntries : List Record) : Except Panic (Option GoError × FS × MiniBitcask) := do
  let (err, fs, db, mergeDBFile) ← MiniBitcask.mergeWrite fs db mergeDBFile validEntries
  if err.isSome then return (err, (Remove fs mergeDBFile.file.name).1, db)
  let dbf ← deref db.dbFile
  let dbFileName := dbf.file.name
  let db := { db with dbFile := some { dbf with file := dbf.file.Close.1 } }
  let fs := (Remove fs dbFileName).1
  let mergeDBFile := { mergeDBFile with file := mergeDBFile.file.Close.1 }
  let mergeDBFileName := mergeDBFile.file.name
  let fs := (Rename fs mergeDBFileName (Join db.dirPath BitCaskFileName)).1
  let (fs, dbFile, err) := NewDBFile fs db.dirPath
  if err.isSome then return (err, (Remove fs mergeDBFileName).1, db)
  let db := { db with dbFile := dbFile }
  return (none, (Remove fs mergeDBFileName).1, db)

/-- `Merge`, with `fuel` bounding the scan; `none` when the fuel runs out. -/
def MiniBitcask.Merge (fs : FS) (db : MiniBitcask) (fuel : Nat) :
    Except Panic (Option (Option GoError × FS × MiniBitcask)) := do
  let dbf ← deref db.dbFile
  if dbf.Offset = 0 then return some (none, fs, db)
  let some (err, db, validEntries) ← MiniBitcask.mergeScan fs fuel db 0 [] | return none
  if err.isSome then return some (err, fs, db)
  let (fs, mergeDBFile, err) := NewMergeDBFile fs db.dirPath
  if err.isSome then return some (err, fs, db)
  let mergeDBFile ← deref mergeDBFile
  let res ← db.mergeLocked fs mergeDBFile validEntries
  return some res

def MiniBitcask.Put (fs : FS) (db : MiniBitcask) (key value : List Byte) :
    Except Panic (Option GoError × FS × MiniBitcask) := do
  if key.length = 0 then return (none, fs, db)
  let dbf ← deref db.dbFile
  let offset := dbf.Offset
  let entry := NewRecord key value PUT
  let (err, fs, dbf) ← dbf.Write fs entry
  let db := { db with dbFile := some dbf }
  let db := { db with indexes := db.indexes.set key offset }
  return (err, fs, db)

def MiniBitcask.Get (fs : FS) (m : MiniBitcask) (key : List Byte) :
    Except Panic ((List Byte × Option GoError) × MiniBitcask) := do
  if key.length = 0 then return (([], none), m)
  let (offset, err) := m.exist key
  if err = some GoError.ErrKeyNotFound then return (([], err), m)
  let dbf ← deref m.dbFile
  let ((e, err), dbf) ← dbf.Read fs offset
  let m := { m with dbFile := some dbf }
  if err.isSome ∧ err ≠ some GoError.EOF then return (([], err), m)
  match e with
  | some e => return ((e.Value, err), m)
  | none => return (([], err), m)

def MiniBitcask.Delete (fs : FS) (db : MiniBitcask) (key : List Byte) :
    Except Panic (Option GoError × FS × MiniBitcask) := do
  if key.length = 0 then return (none, fs, db)
  let (_, err) := db.exist key
  if err = some GoError.ErrKeyNotFound then return (none, fs, db)
  let dbf ← deref db.dbFile
  let e := NewRecord key [] DEL
  let (err, fs, dbf) ← dbf.Write fs e
  let db := { db with dbFile := some dbf }
  if err.isSome then return (err, fs, db)
  let db := { db with indexes := db.indexes.delete key }
  return (err, fs, db)

def MiniBitcask.Close (m : MiniBitcask) : MiniBitcask × Option GoError :=
  match m.dbFile with
  | some dbf => ({ m with dbFile := some { dbf with file := dbf.file.Close.1 } }, dbf.file.Close.2)
  | none => (m, some GoError.ErrInvalidDBFile)

/-! ## The log as a sequence of records

The specification describes the log as an ordered sequence of encoded records
starting at byte 0, and the index through the last record of each key.  The
definitions of this section state that reading; they follow the record format
of the specification and are not part of the Go package. -/

/-- The record at the front of a byte sequence, with the bytes that follow
it: a 10-byte header (key size, value size, mark, big-endian), then the key
and the value. -/
def parseRecord (bs : List Byte) : Option (Record × List Byte) :=
  if bs.length < 10 then none
  else if bs.length < 10 + beValue (bs.take 4) + beValue ((bs.drop 4).take 4) then none
  else
    some
      ({ Key := (bs.drop 10).take (beValue (bs.take 4))
         Value := (bs.drop (10 + beValue (bs.take 4))).take (beValue ((bs.drop 4).take 4))
         KeySize := beValue (bs.take 4)
         ValueSize := beValue ((bs.drop 4).take 4)
         Mark := beValue ((bs.drop 8).take 2) },
        bs.drop (10 + beValue (bs.take 4) + beValue ((bs.drop 4).take 4)))

/-- The records of a byte sequence that starts at offset `off` of the log,
each with its start offset; at most `fuel` of them. -/
def parseLog : Nat → Nat → List Byte → List (Nat × Record)
  | 0, _, _ => []
  | fuel + 1, off, bs =>
    match parseRecord bs with
    | none => []
    | some (r, rest) => (off, r) :: parseLog fuel (off + (10 + r.KeySize + r.ValueSize)) rest

/-- The records of a log, each with its start offset.  A record takes at
least 10 bytes, so the length of the log is fuel enough. -/
def logRecords (log : List Byte) : List (Nat × Record) :=
  parseLog log.length 0 log

/-- The start offset of the last record with key `k`, when that record has
mark `PUT`; `none` when the last record with key `k` has another mark or no
record has key `k`. -/
def latestPut (recs : List (Nat × Record)) (k : List Byte) : Option Int :=
  recs.foldl
    (fun acc e => if e.2.Key = k then (if e.2.Mark = PUT then some (e.1 : Int) else none) else acc)
    none

/-- The log that holds the records `rs`, one after the other. -/
def logOf : List Record → List Byte
  | [] => []
  | r :: rs => r.layout ++ logOf rs

/-- The records `rs` with the start offsets they have in a log where the
first of them starts at `off`. -/
def withOffsets : Nat → List Record → List (Nat × Record)
  | _, [] => []
  | off, r :: rs => (off, r) :: withOffsets (off + (10 + r.KeySize + r.ValueSize)) rs

/-- The record that the log holds once `NewRecord(key, value, mark)` is
written, for a key shorter than `2 ^ 32` bytes: the value is cut to the
`ValueSize` bytes that `Encode` copies. -/
def loggedRecord (key value : List Byte) (mark : Nat) : Record :=
  { Key := key
    Value := value.take (value.length % 2 ^ 32)
    KeySize := key.length
    ValueSize := value.length % 2 ^ 32
    Mark := mark }

/-- A store opened on an empty log: an empty index, write offset 0, and a
log file without bytes. -/
def Fresh (fs : FS) (db : MiniBitcask) : Prop :=
  db.indexes = Index.empty ∧
    ∃ dbf, db.dbFile = some dbf ∧ dbf.Offset = 0 ∧ fs.content dbf.file.ino = []

/-- The states a store opened on an empty log reaches by `Put` operations
with keys shorter than `2 ^ 32` bytes and `Delete` operations, all returning
no error. -/
inductive Reachable : FS → MiniBitcask → Prop where
  | fresh {fs : FS} {db : MiniBitcask} : Fresh fs db → Reachable fs db
  | put {fs fs1 : FS} {db db1 : MiniBitcask} (k v : List Byte) :
      Reachable fs db → k.length < 2 ^ 32 → db.Put fs k v = Except.ok (none, fs1, db1) →
      Reachable fs1 db1
  | delete {fs fs1 : FS} {db db1 : MiniBitcask} (k : List Byte) :
      Reachable fs db → db.Delete fs k = Except.ok (none, fs1, db1) → Reachable fs1 db1

/-- The record `NewRecord("k", "v", PUT)`. -/
def recKV : Record := NewRecord [107] [118] PUT

/-- A record whose key size is the largest `uint32`. -/
def recWrap : Record :=
  { Key := [], Value := [], KeySize := 4294967295, ValueSize := 0, Mark := PUT }

/-- A file system holding the directory `db` and in it an empty log file. -/
def fsEmptyLog : FS :=
  { names := [(["db"], Node.dir), (["db", BitCaskFileName], Node.file 0)]
    inodes := fun _ => []
    nextIno := 1
    wfaults := [] }

/-- A store over the empty log of `fsEmptyLog`, as the struct literal of
`Open` fills it in: an empty index, the directory, and the `DBFile` that
`CreateFile` returns for the directory. -/
def dbFresh : MiniBitcask :=
  { indexes := Index.empty
    dbFile := (CreateFile fsEmptyLog ["db"]).2.1
    dirPath := ["db"] }

/-- The value a call returned, or `dflt` when it panicked. -/
def returned {α : Type} (x : Except Panic α) (dflt : α) : α :=
  match x with
  | Except.ok a => a
  | Except.error _ => dflt

/-- The `DBFile` of the fresh store. -/
def dbfFresh : DBFile :=
  { file := { name := ["db", BitCaskFileName], ino := 0, closed := false }
    Offset := 0
    HeaderBufPool := [] }

/-- The file system after `Put("k", "a")` on the fresh store. -/
def fsPut : FS := (returned (dbFresh.Put fsEmptyLog [107] [97]) (none, fsEmptyLog, dbFresh)).2.1

/-- The store after `Put("k", "a")` on the fresh store. -/
def dbPut : MiniBitcask :=
  (returned (dbFresh.Put fsEmptyLog [107] [97]) (none, fsEmptyLog, dbFresh)).2.2

/-- The file system after `Put("k", "a")` and `Put("k", "b")`. -/
def fsPutPut : FS := (returned (dbPut.Put fsPut [107] [98]) (none, fsPut, dbPut)).2.1

/-- The store after `Put("k", "a")` and `Put("k", "b")`. -/
def dbPutPut : MiniBitcask := (returned (dbPut.Put fsPut [107] [98]) (none, fsPut, dbPut)).2.2

/-- The file system after `Put("k", "a")` and `Delete("k")`. -/
def fsPutDel : FS := (returned (dbPut.Delete fsPut [107]) (none, fsPut, dbPut)).2.1

/-- The store after `Put("k", "a")` and `Delete("k")`. -/
def dbPutDel : MiniBitcask := (returned (dbPut.Delete fsPut [107]) (none, fsPut, dbPut)).2.2

/-- A store for recovery over the log left by `Put("k", "a")`: an empty
index and a new `DBFile` on the log file. -/
def dbReopened : MiniBitcask :=
  { indexes := Index.empty
    dbFile := (CreateFile fsPut ["db"]).2.1
    dirPath := ["db"] }

/-- The file system after `Write` of `NewRecord("k", "v", PUT)` to the empty
log. -/
def fsWritten : FS := (returned (dbfFresh.Write fsEmptyLog recKV) (none, fsEmptyLog, dbfFresh)).2.1

/-- The `DBFile` after `Write` of `NewRecord("k", "v", PUT)` to the empty
log. -/
def dbfWritten : DBFile :=
  (returned (dbfFresh.Write fsEmptyLog recKV) (none, fsEmptyLog, dbfFresh)).2.2

/-- The file system of `fsEmptyLog` on a device that fails the next write
before any byte is written. -/
def fsFailing : FS := { fsEmptyLog with wfaults := [some 0] }

/-- The file system after the failed `Write` of `NewRecord("k", "v", PUT)`. -/
def fsWriteFailed : FS :=
  (returned (dbfFresh.Write fsFailing recKV) (none, fsFailing, dbfFresh)).2.1

/-- The `DBFile` after the failed `Write` of `NewRecord("k", "v", PUT)`. -/
def dbfWriteFailed : DBFile :=
  (returned (dbfFresh.Write fsFailing recKV) (none, fsFailing, dbfFresh)).2.2

/-- A key of `2 ^ 32 + 1` zero bytes. -/
def bigKey : List Byte := List.replicate 4294967297 0

/-- The file system after `Put(bigKey, nil)` on the fresh store. -/
def fsBig : FS := fsEmptyLog.setContent 0 [0, 0, 0, 1, 0, 0, 0, 0, 0, 0, 0]

/-- The store after `Put(bigKey, nil)` on the fresh store. -/
def dbBig : MiniBitcask :=
  { indexes := Index.empty.set bigKey 0
    dbFile := some { dbfFresh with Offset := 11 }
    dirPath := ["db"] }

/-- The file system after `Put(bigKey, nil)` and `Delete(bigKey)`. -/
def fsBigDel : FS :=
  fsBig.setContent 0
    ([0, 0, 0, 1, 0, 0, 0, 0, 0, 0, 0] ++ [0, 0, 0, 1, 0, 0, 0, 0, 0, 1, 0])

/-- The store after `Put(bigKey, nil)` and `Delete(bigKey)`. -/
def dbBigDel : MiniBitcask :=
  { indexes := (Index.empty.set bigKey 0).delete bigKey
    dbFile := some { dbfFresh with Offset := 22 }
    dirPath := ["db"] }

/-- The file system after a `Put("k", "a")` whose write failed. -/
def fsPutFailed : FS :=
  (returned (dbFresh.Put fsFailing [107] [97]) (none, fsFailing, dbFresh)).2.1

/-- The store after a `Put("k", "a")` whose write failed. -/
def dbPutFailed : MiniBitcask :=
  (returned (dbFresh.Put fsFailing [107] [97]) (none, fsFailing, dbFresh)).2.2

/-- The file system after the failed `Put("k", "a")` and a `Delete("k")`. -/
def fsFailDel : FS :=
  (returned (dbPutFailed.Delete fsPutFailed [107]) (none, fsPutFailed, dbPutFailed)).2.1

/-- The store after the failed `Put("k", "a")` and a `Delete("k")`. -/
def dbFailDel : MiniBitcask :=
  (returned (dbPutFailed.Delete fsPutFailed [107]) (none, fsPutFailed, dbPutFailed)).2.2

/-- A file system holding the empty directory `db` and nothing else. -/
def fsDirOnly : FS :=
  { names := [(["db"], Node.dir)], inodes := fun _ => [], nextIno := 0, wfaults := [] }

/-- A file system holding nothing below the root. -/
def fsBare : FS :=
  { names := [], inodes := fun _ => [], nextIno := 0, wfaults := [] }

/-- A log whose only record has a complete header announcing a 5-byte key and
no value, followed by 2 bytes only. -/
def fsTruncated : FS :=
  { names := [(["db"], Node.dir), (["db", BitCaskFileName], Node.file 0)]
    inodes := fun i => if i = 0 then [0, 0, 0, 5, 0, 0, 0, 0, 0, 0, 107, 107] else []
    nextIno := 1
    wfaults := [] }

/-- The `DBFile` that `CreateFile` returns over the truncated log. -/
def dbfTruncated : DBFile :=
  { file := { name := ["db", BitCaskFileName], ino := 0, closed := false }
    Offset := 12
    HeaderBufPool := [] }

/-- The header of the truncated log, decoded. -/
def hdrTruncated : Record :=
  { Key := [], Value := [], KeySize := 5, ValueSize := 0, Mark := PUT }

/-- A store for recovery over the log left by `Put("k", "a")` and
`Put("k", "b")`: an empty index and a new `DBFile` on the log file. -/
def dbRecover : MiniBitcask :=
  { indexes := Index.empty
    dbFile := (CreateFile fsPutPut ["db"]).2.1
    dirPath := ["db"] }

/-- The record `NewRecord("k", "b", PUT)`. -/
def recKB : Record := NewRecord [107] [98] PUT

/-- The `DBFile` that `NewMergeDBFile` returns when it creates the merge file
as the second file of the file system. -/
def dbfMerge : DBFile :=
  { file := { name := Join ["db"] MergeFileName, ino := 1, closed := false }
    Offset := 0
    HeaderBufPool := [] }

/-- The file system after `Put("k", "a")`, `Put("k", "b")` and the creation
of the merge file. -/
def fsMergeOpen : FS := (NewMergeDBFile fsPutPut ["db"]).1

/-- The file system after the locked part of `Merge` ran on `fsMergeOpen`
with the record of `Put("k", "b")` as the only valid entry. -/
def fsSwapped : FS :=
  (returned (dbPutPut.mergeLocked fsMergeOpen dbfMerge [recKB]) (none, fsMergeOpen, dbPutPut)).2.1

/-- The store after the locked part of `Merge` ran on `fsMergeOpen`. -/
def dbSwapped : MiniBitcask :=
  (returned (dbPutPut.mergeLocked fsMergeOpen dbfMerge [recKB]) (none, fsMergeOpen, dbPutPut)).2.2

theorem toNat_ofNat_byte (n : Nat) : (UInt8.ofNat n).toNat = n % 256 := by
  simp [UInt8.toNat, UInt8.ofNat, Fin.ofNat]

theorem beValue_beBytes32 (v : Nat) (h : v < 2 ^ 32) : beValue (beBytes32 v) = v := by
  simp only [beValue, beBytes32, List.foldl, toNat_ofNat_byte]
  omega

theorem beValue_beBytes16 (v : Nat) (h : v < 2 ^ 16) : beValue (beBytes16 v) = v := by
  simp only [beValue, beBytes16, List.foldl, toNat_ofNat_byte]
  omega

theorem storeAt_append (a src : List Byte) (m : Nat) :
    storeAt (a ++ List.replicate m 0) a.length src
      = (a ++ src) ++ List.replicate (m - src.length) 0 := by
  simp [storeAt, List.drop_append, List.drop_replicate, List.take_append]

theorem PutUint32_append (a : List Byte) (m v hi : Nat) (hm : 4 ≤ m) (hhi : hi = a.length + 4) :
    PutUint32 (a ++ List.replicate m 0) a.length hi v
      = Except.ok ((a ++ beBytes32 v) ++ List.replicate (m - 4) 0) := by
  subst hhi
  have h1 : a.length ≤ a.length + 4 ∧ a.length + 4 ≤ (a ++ List.replicate m (0 : Byte)).length := by
    simp; omega
  simp only [PutUint32, checkSlice, h1, and_self, if_true]
  simp [storeAt_append, beBytes32, bind, Except.bind, pure, Except.pure]

theorem PutUint16_append (a : List Byte) (m v hi : Nat) (hm : 2 ≤ m) (hhi : hi = a.length + 2) :
    PutUint16 (a ++ List.replicate m 0) a.length hi v
      = Except.ok ((a ++ beBytes16 v) ++ List.replicate (m - 2) 0) := by
  subst hhi
  have h1 : a.length ≤ a.length + 2 ∧ a.length + 2 ≤ (a ++ List.replicate m (0 : Byte)).length := by
    simp; omega
  simp only [PutUint16, checkSlice, h1, and_self, if_true]
  simp [storeAt_append, beBytes16, bind, Except.bind, pure, Except.pure]

theorem copyInto_append (a src : List Byte) (m hi : Nat) (hm : src.length ≤ m)
    (hhi : hi = a.length + src.length) :
    copyInto (a ++ List.replicate m 0) a.length hi src
      = Except.ok ((a ++ src) ++ List.replicate (m - src.length) 0) := by
  subst hhi
  have h1 : a.length ≤ a.length + src.length ∧
      a.length + src.length ≤ (a ++ List.replicate m (0 : Byte)).length := by
    simp; omega
  simp only [copyInto, checkSlice, h1, and_self, if_true]
  simp [storeAt_append, bind, Except.bind, pure, Except.pure]

theorem Encode_eq_layout (r : Record) (hk : r.KeySize = r.Key.length)
    (hv : r.ValueSize = r.Value.length) (hsz : 10 + r.KeySize + r.ValueSize < 2 ^ 32) :
    r.Encode = Except.ok (r.layout, none) := by
  have hn : r.GetSize.toNat = 10 + r.Key.length + r.Value.length := by
    simp only [Record.GetSize, entryHeaderSize, Int.toNat_ofNat]
    rw [Nat.mod_eq_of_lt hsz]; omega
  have hmod : (entryHeaderSize + r.KeySize) % 2 ^ 32 = 10 + r.Key.length := by
    simp only [entryHeaderSize]; rw [Nat.mod_eq_of_lt (by omega)]; omega
  unfold Record.Encode
  rw [hn, hmod]
  have e1 := PutUint32_append [] (10 + r.Key.length + r.Value.length) r.KeySize 4 (by omega) rfl
  simp only [List.nil_append, List.length_nil] at e1
  simp only [e1, bind, Except.bind]
  have e2 := PutUint32_append (beBytes32 r.KeySize) (10 + r.Key.length + r.Value.length - 4)
    r.ValueSize 8 (by omega) rfl
  simp only [show (beBytes32 r.KeySize).length = 4 from rfl] at e2
  simp only [e2]
  have e3 := PutUint16_append (beBytes32 r.KeySize ++ beBytes32 r.ValueSize)
    (10 + r.Key.length + r.Value.length - 4 - 4) r.Mark 10 (by omega) rfl
  simp only [show (beBytes32 r.KeySize ++ beBytes32 r.ValueSize).length = 8 from rfl] at e3
  simp only [e3]
  have e4 := copyInto_append (beBytes32 r.KeySize ++ beBytes32 r.ValueSize ++ beBytes16 r.Mark)
    r.Key (10 + r.Key.length + r.Value.length - 4 - 4 - 2) (10 + r.Key.length) (by omega) rfl
  simp only [show (beBytes32 r.KeySize ++ beBytes32 r.ValueSize ++ beBytes16 r.Mark).length = 10
    from rfl] at e4
  simp only [entryHeaderSize, e4]
  have e5 := copyInto_append
    (beBytes32 r.KeySize ++ beBytes32 r.ValueSize ++ beBytes16 r.Mark ++ r.Key)
    r.Value (10 + r.Key.length + r.Value.length - 4 - 4 - 2 - r.Key.length)
    ((beBytes32 r.KeySize ++ beBytes32 r.ValueSize ++ beBytes16 r.Mark ++ r.Key ++
      List.replicate (10 + r.Key.length + r.Value.length - 4 - 4 - 2 - r.Key.length) 0).length)
    (by omega) (by simp [beBytes32, beBytes16]; omega)
  have hl : (beBytes32 r.KeySize ++ beBytes32 r.ValueSize ++ beBytes16 r.Mark ++ r.Key).length
      = 10 + r.Key.length := by simp [beBytes32, beBytes16]; omega
  rw [hl] at e5
  simp only [e5]
  have hz : 10 + r.Key.length + r.Value.length - 4 - 4 - 2 - r.Key.length - r.Value.length = 0 := by
    omega
  simp [hz, Record.layout, pure, Except.pure]

theorem Decode_layout (r : Record) (hwf : r.WellFormed) :
    Decode r.layout = Except.ok
      (some { Key := [], Value := [], KeySize := r.KeySize, ValueSize := r.ValueSize,
              Mark := r.Mark }, none) := by
  obtain ⟨_, _, hks, hvs, hm⟩ := hwf
  have hlen : 10 ≤ r.layout.length := by
    simp [Record.layout, beBytes32, beBytes16]
  have c1 : (0 ≤ 4 ∧ 4 ≤ r.layout.length) := by omega
  have c2 : (4 ≤ 8 ∧ 8 ≤ r.layout.length) := by omega
  have c3 : (8 ≤ 10 ∧ 10 ≤ r.layout.length) := by omega
  have t1 : (r.layout.drop 0).take 4 = beBytes32 r.KeySize := by
    simp [Record.layout, beBytes32]
  have t2 : (r.layout.drop 4).take 4 = beBytes32 r.ValueSize := by
    simp [Record.layout, beBytes32]
  have t3 : (r.layout.drop 8).take 2 = beBytes16 r.Mark := by
    simp [Record.layout, beBytes32, beBytes16]
  simp only [Decode, Uint32, Uint16, checkSlice, c1, c2, c3, and_self, if_true, t1, t2, t3,
    beValue_beBytes32 _ hks, beValue_beBytes32 _ hvs, beValue_beBytes16 _ hm]
  rfl

/-! ## Record codec -/

/-- C1 (as stated, refuted): for the well-formed record `NewRecord("k", "v",
PUT)`, `Decode` applied to the bytes of `Encode` returns a record whose `Key`
and `Value` are empty, so it differs from the record that was encoded. -/
theorem C1_roundtrip_counterexample :
    recKV.WellFormed ∧
    recKV.Encode = Except.ok ([0, 0, 0, 1, 0, 0, 0, 1, 0, 0, 107, 118], none) ∧
    Decode [0, 0, 0, 1, 0, 0, 0, 1, 0, 0, 107, 118] = Except.ok
      (some { Key := [], Value := [], KeySize := 1, ValueSize := 1, Mark := 0 }, none) ∧
    ({ Key := [], Value := [], KeySize := 1, ValueSize := 1, Mark := 0 } : Record) ≠ recKV := by
  refine ⟨by decide, rfl, rfl, by decide⟩

/-- C1 (amended): for every well-formed record whose total size
`10 + KeySize + ValueSize` is below `2 ^ 32`, `Encode` succeeds and `Decode`
applied to its bytes returns, without error, a record with the same
`KeySize`, `ValueSize` and `Mark` and with empty `Key` and `Value`: `Decode`
parses the header only. -/
theorem C1_decode_encode_header (r : Record) (hwf : r.WellFormed)
    (hsz : 10 + r.KeySize + r.ValueSize < 2 ^ 32) :
    ∃ enc, r.Encode = Except.ok (enc, none) ∧
      Decode enc = Except.ok
        (some { Key := [], Value := [], KeySize := r.KeySize, ValueSize := r.ValueSize,
                Mark := r.Mark }, none) :=
  ⟨r.layout, Encode_eq_layout r hwf.1 hwf.2.1 hsz, Decode_layout r hwf⟩

theorem C1_decode_encode_header_witness :
    recKV.WellFormed ∧ 10 + recKV.KeySize + recKV.ValueSize < 2 ^ 32 ∧
    ∃ enc, recKV.Encode = Except.ok (enc, none) ∧
      Decode enc = Except.ok
        (some { Key := [], Value := [], KeySize := recKV.KeySize,
                ValueSize := recKV.ValueSize, Mark := recKV.Mark }, none) :=
  ⟨by decide, by decide, C1_decode_encode_header recKV (by decide) (by decide)⟩

/-- C2: for every well-formed record with `10 + KeySize + ValueSize < 2 ^ 32`,
`Encode` returns no error and a byte sequence of length
`10 + KeySize + ValueSize` whose bytes 0..3 are `KeySize` big-endian, bytes
4..7 are `ValueSize` big-endian, bytes 8..9 are `Mark` big-endian (with
`PUT = 0` and `DEL = 1`), followed by the `KeySize` bytes of `Key` and then
the `ValueSize` bytes of `Value`. -/
theorem C2_encode_layout (r : Record) (hwf : r.WellFormed)
    (hsz : 10 + r.KeySize + r.ValueSize < 2 ^ 32) :
    ∃ enc, r.Encode = Except.ok (enc, none) ∧
      enc.length = 10 + r.KeySize + r.ValueSize ∧
      enc.take 4 = beBytes32 r.KeySize ∧ beValue (enc.take 4) = r.KeySize ∧
      (enc.drop 4).take 4 = beBytes32 r.ValueSize ∧ beValue ((enc.drop 4).take 4) = r.ValueSize ∧
      (enc.drop 8).take 2 = beBytes16 r.Mark ∧ beValue ((enc.drop 8).take 2) = r.Mark ∧
      (enc.drop 10).take r.KeySize = r.Key ∧
      enc.drop (10 + r.KeySize) = r.Value ∧
      PUT = 0 ∧ DEL = 1 := by
  obtain ⟨hk, hv, hks, hvs, hm⟩ := hwf
  refine ⟨r.layout, Encode_eq_layout r hk hv hsz, ?_, ?_, ?_, ?_, ?_, ?_, ?_, ?_, ?_, rfl, rfl⟩
  · simp [Record.layout, beBytes32, beBytes16, hk, hv]; omega
  · simp [Record.layout, beBytes32]
  · have : r.layout.take 4 = beBytes32 r.KeySize := by simp [Record.layout, beBytes32]
    rw [this, beValue_beBytes32 _ hks]
  · simp [Record.layout, beBytes32]
  · have : (r.layout.drop 4).take 4 = beBytes32 r.ValueSize := by
      simp [Record.layout, beBytes32]
    rw [this, beValue_beBytes32 _ hvs]
  · simp [Record.layout, beBytes32, beBytes16]
  · have : (r.layout.drop 8).take 2 = beBytes16 r.Mark := by
      simp [Record.layout, beBytes32, beBytes16]
    rw [this, beValue_beBytes16 _ hm]
  · simp [Record.layout, beBytes32, beBytes16, hk]
  · have hl : (beBytes32 r.KeySize ++ beBytes32 r.ValueSize ++ beBytes16 r.Mark ++ r.Key).length
        = 10 + r.KeySize := by simp [beBytes32, beBytes16, hk]; omega
    rw [← hl]
    simp only [Record.layout]
    rw [List.drop_left]

theorem C2_encode_layout_witness :
    recKV.WellFormed ∧ 10 + recKV.KeySize + recKV.ValueSize < 2 ^ 32 ∧
    ∃ enc, recKV.Encode = Except.ok (enc, none) ∧
      enc.length = 10 + recKV.KeySize + recKV.ValueSize ∧
      enc.take 4 = beBytes32 recKV.KeySize ∧ beValue (enc.take 4) = recKV.KeySize ∧
      (enc.drop 4).take 4 = beBytes32 recKV.ValueSize ∧
      beValue ((enc.drop 4).take 4) = recKV.ValueSize ∧
      (enc.drop 8).take 2 = beBytes16 recKV.Mark ∧ beValue ((enc.drop 8).take 2) = recKV.Mark ∧
      (enc.drop 10).take recKV.KeySize = recKV.Key ∧
      enc.drop (10 + recKV.KeySize) = recKV.Value ∧
      PUT = 0 ∧ DEL = 1 :=
  ⟨by decide, by decide, C2_encode_layout recKV (by decide) (by decide)⟩

/-- C3 (the code departs from the claim): for the record with
`KeySize = 4294967295` and `ValueSize = 0`, `GetSize` returns 9, not the exact
sum `10 + KeySize + ValueSize = 4294967305`: the sum is computed in `uint32`
and wraps before it is converted to `int64`. -/
theorem C3_getsize_wraps :
    recWrap.KeySize < 2 ^ 32 ∧ recWrap.ValueSize < 2 ^ 32 ∧
    recWrap.GetSize = 9 ∧
    recWrap.GetSize ≠ ((10 + recWrap.KeySize + recWrap.ValueSize : Nat) : Int) := by
  refine ⟨by decide, by decide, by decide, by decide⟩

/-- `GetSize` is the exact sum exactly when the sum fits in 32 bits. -/
theorem GetSize_exact_iff (r : Record) :
    r.GetSize = ((10 + r.KeySize + r.ValueSize : Nat) : Int) ↔
      10 + r.KeySize + r.ValueSize < 2 ^ 32 := by
  simp only [Record.GetSize, entryHeaderSize]
  constructor
  · intro h
    have h2 : (10 + r.KeySize + r.ValueSize) % 2 ^ 32 = 10 + r.KeySize + r.ValueSize := by
      exact_mod_cast h
    have := Nat.mod_lt (10 + r.KeySize + r.ValueSize) (show 0 < 2 ^ 32 by norm_num)
    omega
  · intro h
    rw [Nat.mod_eq_of_lt h]

/-! ## Lemmas on buffers and writes -/

theorem storeAt_length (buf src : List Byte) (pos : Nat) (h : pos + src.length ≤ buf.length) :
    (storeAt buf pos src).length = buf.length := by
  simp [storeAt]; omega

theorem PutUint32_ok (buf b : List Byte) (lo hi v : Nat) (h : PutUint32 buf lo hi v = Except.ok b) :
    b.length = buf.length ∧ lo + 4 ≤ buf.length := by
  unfold PutUint32 checkSlice at h
  by_cases c : lo ≤ hi ∧ hi ≤ buf.length
  · by_cases d : hi - lo < 4
    · simp [c, d, bind, Except.bind, pure, Except.pure, throw, throwThe, MonadExceptOf.throw] at h
    · simp [c, d, bind, Except.bind, pure, Except.pure] at h
      subst h
      refine ⟨storeAt_length _ _ _ (by simp [beBytes32]; omega), by omega⟩
  · simp [c, bind, Except.bind, throw, throwThe, MonadExceptOf.throw] at h

theorem PutUint16_ok (buf b : List Byte) (lo hi v : Nat) (h : PutUint16 buf lo hi v = Except.ok b) :
    b.length = buf.length ∧ lo + 2 ≤ buf.length := by
  unfold PutUint16 checkSlice at h
  by_cases c : lo ≤ hi ∧ hi ≤ buf.length
  · by_cases d : hi - lo < 2
    · simp [c, d, bind, Except.bind, pure, Except.pure, throw, throwThe, MonadExceptOf.throw] at h
    · simp [c, d, bind, Except.bind, pure, Except.pure] at h
      subst h
      refine ⟨storeAt_length _ _ _ (by simp [beBytes16]; omega), by omega⟩
  · simp [c, bind, Except.bind, throw, throwThe, MonadExceptOf.throw] at h

theorem copyInto_ok (buf b src : List Byte) (lo hi : Nat) (h : copyInto buf lo hi src = Except.ok b) :
    b.length = buf.length := by
  unfold copyInto checkSlice at h
  by_cases c : lo ≤ hi ∧ hi ≤ buf.length
  · simp [c, bind, Except.bind, pure, Except.pure] at h
    subst h
    exact storeAt_length _ _ _ (by simp; omega)
  · simp [c, bind, Except.bind, throw, throwThe, MonadExceptOf.throw] at h

/-- When `Encode` returns, its error is nil and the buffer has the length
`GetSize` gave, which is at least the header size. -/
theorem Encode_ok (r : Record) (enc : List Byte) (e : Option GoError)
    (h : r.Encode = Except.ok (enc, e)) :
    e = none ∧ (enc.length : Int) = r.GetSize ∧ 10 ≤ enc.length := by
  unfold Record.Encode at h
  simp only [bind, Except.bind] at h
  split at h
  · exact absurd h (by simp)
  rename_i b1 h1
  split at h
  · exact absurd h (by simp)
  rename_i b2 h2
  split at h
  · exact absurd h (by simp)
  rename_i b3 h3
  split at h
  · exact absurd h (by simp)
  rename_i b4 h4
  split at h
  · exact absurd h (by simp)
  rename_i b5 h5
  simp only [pure, Except.pure, Except.ok.injEq, Prod.mk.injEq] at h
  obtain ⟨rfl, rfl⟩ := h
  have l1 := PutUint32_ok _ _ _ _ _ h1
  have l2 := PutUint32_ok _ _ _ _ _ h2
  have l3 := PutUint16_ok _ _ _ _ _ h3
  have l4 := copyInto_ok _ _ _ _ _ h4
  have l5 := copyInto_ok _ _ _ _ _ h5
  have hg : (0 : Int) ≤ r.GetSize := by unfold Record.GetSize; exact Int.ofNat_nonneg _
  simp only [List.length_replicate] at l1
  refine ⟨rfl, ?_, ?_⟩
  · rw [l5, l4, l3.1, l2.1, l1.1]; exact Int.toNat_of_nonneg hg
  · omega

theorem writeBytes_length (data b : List Byte) (pos : Nat) :
    pos + b.length ≤ (writeBytes data pos b).length := by
  simp [writeBytes]; omega

/-- The bytes written are read back at the position they were written to. -/
theorem writeBytes_at (data b : List Byte) (pos : Nat) :
    ((writeBytes data pos b).drop pos).take b.length = b := by
  have h : ((data ++ List.replicate (pos - data.length) 0).take pos).length = pos := by
    simp; omega
  unfold writeBytes
  rw [List.append_assoc]
  conv_lhs => rw [show List.drop pos
      (List.take pos (data ++ List.replicate (pos - data.length) 0) ++
        (b ++ List.drop (pos + b.length) data)) = b ++ List.drop (pos + b.length) data from by
    conv_lhs => arg 1; rw [← h]
    exact List.drop_left _ _]
  simp

/-- A write at or after position `n` leaves the first `n` bytes as they
were, when the file already had that many. -/
theorem writeBytes_take (data b : List Byte) (pos n : Nat) (hn : n ≤ pos) (hd : n ≤ data.length) :
    (writeBytes data pos b).take n = data.take n := by
  unfold writeBytes
  rw [List.append_assoc, List.take_append_of_le_length (by simp; omega),
    List.take_take, Nat.min_eq_left hn, List.take_append_of_le_length hd]

/-- A successful `WriteAt` of a non-empty buffer: the file is open, the
offset is not negative, the file holds the buffer at that offset, and no
other file and no name is changed. -/
theorem WriteAt_ok (fs fs1 : FS) (f : OsFile) (b : List Byte) (off : Int) (n : Nat)
    (h : f.WriteAt fs b off = (fs1, n, none)) (hb : b ≠ []) :
    f.closed = false ∧ 0 ≤ off ∧
      fs1.content f.ino = writeBytes (fs.content f.ino) off.toNat b ∧
      (∀ i, i ≠ f.ino → fs1.content i = fs.content i) ∧ fs1.names = fs.names := by
  unfold OsFile.WriteAt at h
  by_cases c : f.closed = true
  · simp [c] at h
  by_cases d : off < 0
  · simp [c, d] at h
  rw [if_neg c, if_neg d, if_neg hb] at h
  have hc : f.closed = false := by simpa using c
  refine ⟨hc, by omega, ?_⟩
  split at h
  · simp at h
  · simp only [Prod.mk.injEq, and_true] at h
    obtain ⟨rfl, _⟩ := h
    refine ⟨by simp [FS.content, FS.setContent], ?_, rfl⟩
    intro i hi; simp [FS.content, FS.setContent, hi]
  · simp only [Prod.mk.injEq, and_true] at h
    obtain ⟨rfl, _⟩ := h
    refine ⟨by simp [FS.content, FS.setContent], ?_, rfl⟩
    intro i hi; simp [FS.content, FS.setContent, hi]

/-- What `Write` did when it returned. -/
theorem Write_ok (fs fs1 : FS) (p p1 : DBFile) (r : Record) (err : Option GoError)
    (h : p.Write fs r = Except.ok (err, fs1, p1)) :
    ∃ enc n, r.Encode = Except.ok (enc, none) ∧
      p.file.WriteAt fs enc p.Offset = (fs1, n, err) ∧
      p1 = { p with Offset := p.Offset + r.GetSize } := by
  unfold DBFile.Write at h
  simp only [bind, Except.bind] at h
  split at h
  · exact absurd h (by simp)
  rename_i v hv
  obtain ⟨enc, e⟩ := v
  have he := (Encode_ok r enc e hv).1
  subst he
  simp only [Option.isSome_none, Bool.false_eq_true, if_false, pure, Except.pure,
    Except.ok.injEq, Prod.mk.injEq] at h
  obtain ⟨h1, h2, h3⟩ := h
  exact ⟨enc, (p.file.WriteAt fs enc p.Offset).2.1, hv, by rw [← h1, ← h2], h3.symm⟩

/-- A write at or after position `n + m` leaves the `m` bytes at position `n`
as they were, when the file already held them. -/
theorem writeBytes_window (data b : List Byte) (pos n m : Nat) (hn : n + m ≤ pos)
    (hd : n + m ≤ data.length) :
    ((writeBytes data pos b).drop n).take m = (data.drop n).take m := by
  rw [List.take_drop, List.take_drop, writeBytes_take data b pos (n + m) hn hd]

/-! ## Lemmas on the store operations -/

/-- What `Put` did for a non-empty key when it returned. -/
theorem Put_ok (fs fs1 : FS) (db db1 : MiniBitcask) (k v : List Byte) (err : Option GoError)
    (hk : k ≠ []) (h : db.Put fs k v = Except.ok (err, fs1, db1)) :
    ∃ dbf dbf1, db.dbFile = some dbf ∧
      dbf.Write fs (NewRecord k v PUT) = Except.ok (err, fs1, dbf1) ∧
      db1 = { indexes := db.indexes.set k dbf.Offset, dbFile := some dbf1,
              dirPath := db.dirPath } := by
  unfold MiniBitcask.Put at h
  have hl : ¬ k.length = 0 := by simpa using hk
  simp only [hl, if_false, bind, Except.bind] at h
  cases hdb : db.dbFile with
  | none => simp [hdb, deref, throw, throwThe, MonadExceptOf.throw, pure, Except.pure] at h
  | some dbf =>
    simp only [hdb, deref, pure, Except.pure] at h
    split at h
    · exact absurd h (by simp)
    rename_i w hw
    obtain ⟨e, fs', dbf1⟩ := w
    simp only [Except.ok.injEq, Prod.mk.injEq] at h
    obtain ⟨rfl, rfl, rfl⟩ := h
    exact ⟨dbf, dbf1, rfl, hw, rfl⟩

/-- What `Delete` did for a non-empty key of the index when it returned with
no error. -/
theorem Delete_ok (fs fs1 : FS) (db db1 : MiniBitcask) (k : List Byte) (o : Int)
    (hk : k ≠ []) (hin : db.indexes k = some o)
    (h : db.Delete fs k = Except.ok (none, fs1, db1)) :
    ∃ dbf dbf1, db.dbFile = some dbf ∧
      dbf.Write fs (NewRecord k [] DEL) = Except.ok (none, fs1, dbf1) ∧
      db1 = { indexes := db.indexes.delete k, dbFile := some dbf1, dirPath := db.dirPath } := by
  unfold MiniBitcask.Delete at h
  have hl : ¬ k.length = 0 := by simpa using hk
  simp only [hl, if_false, bind, Except.bind, MiniBitcask.exist, hin] at h
  cases hdb : db.dbFile with
  | none => simp [hdb, deref, throw, throwThe, MonadExceptOf.throw, pure, Except.pure] at h
  | some dbf =>
    simp only [hdb, deref, pure, Except.pure] at h
    split at h
    · rename_i hh
      exact absurd hh (by simp)
    split at h
    · exact absurd h (by simp)
    rename_i w hw
    obtain ⟨e, fs', dbf1⟩ := w
    cases e with
    | some e => simp at h
    | none =>
      simp only [Option.isSome_none, Bool.false_eq_true, if_false, Except.ok.injEq,
        Prod.mk.injEq, true_and] at h
      obtain ⟨rfl, rfl⟩ := h
      exact ⟨dbf, dbf1, rfl, hw, rfl⟩

/-- `Get` of a non-empty key that the index does not hold. -/
theorem Get_absent (fs : FS) (db : MiniBitcask) (k : List Byte) (hk : k ≠ [])
    (hin : db.indexes k = none) :
    db.Get fs k = Except.ok (([], some GoError.ErrKeyNotFound), db) := by
  unfold MiniBitcask.Get
  have hl : ¬ k.length = 0 := by simpa using hk
  simp [hl, MiniBitcask.exist, hin, pure, Except.pure, bind, Except.bind]

/-- `Delete` of a key that the index does not hold. -/
theorem Delete_absent (fs : FS) (db : MiniBitcask) (k : List Byte) (hin : db.indexes k = none) :
    db.Delete fs k = Except.ok (none, fs, db) := by
  unfold MiniBitcask.Delete
  by_cases hl : k.length = 0
  · simp [hl, pure, Except.pure]
  · simp [hl, MiniBitcask.exist, hin, pure, Except.pure, bind, Except.bind]

/-- `Read` on a `DBFile` whose pool holds nothing, as the constructors leave
it: the pool hands out the `[]byte` that `New` makes and the assertion to
`*[]byte` panics. -/
theorem Read_fresh_pool (fs : FS) (p : DBFile) (off : Int) (h : p.HeaderBufPool = []) :
    p.Read fs off = Except.error Panic.typeAssert := by
  unfold DBFile.Read
  simp [h, poolGet, headerBufNew, bind, Except.bind, throw, throwThe, MonadExceptOf.throw]

/-- `Read` never returns a record: whatever the pool holds, it panics or
returns an error. -/
theorem Read_no_record (fs : FS) (p p1 : DBFile) (off : Int) (r : Option Record)
    (err : Option GoError) (h : p.Read fs off = Except.ok ((r, err), p1)) :
    r = none ∧ err.isSome = true := by
  unfold DBFile.Read at h
  simp only [bind, Except.bind, pure, Except.pure, deref, throw, throwThe,
    MonadExceptOf.throw] at h
  split at h
  · split at h
    · rename_i c
      simp only [Except.ok.injEq, Prod.mk.injEq] at h
      obtain ⟨⟨rfl, rfl⟩, _⟩ := h
      exact ⟨rfl, c⟩
    · exact absurd h (by simp)
  · exact absurd h (by simp)

/-! ## Store operations -/

/-- C4 (the code departs from the claim): on the store opened on an empty
log, `Put("k", "a")` and `Put("k", "b")` both return no error, the log then
holds the two PUT records for `k` and the index holds the start offset 12 of
the second one, but `Get("k")` panics in `DBFile.Read` instead of returning
`"b"`. -/
theorem C4_get_after_puts_panics :
    dbFresh.Put fsEmptyLog [107] [97] = Except.ok (none, fsPut, dbPut) ∧
    dbPut.Put fsPut [107] [98] = Except.ok (none, fsPutPut, dbPutPut) ∧
    fsPutPut.content 0 =
      [0, 0, 0, 1, 0, 0, 0, 1, 0, 0, 107, 97] ++ [0, 0, 0, 1, 0, 0, 0, 1, 0, 0, 107, 98] ∧
    dbPutPut.indexes [107] = some 12 ∧
    dbPutPut.Get fsPutPut [107] = Except.error Panic.typeAssert := by
  refine ⟨rfl, rfl, by decide, by decide, rfl⟩

/-- C5: for every store state, non-empty key `k` and value `v`, after
`Put(k, v)` and then `Delete(k)` both return no error, `Get(k)` reports
`ErrKeyNotFound`, and the bytes that `Put` appended for `k` (the encoding of
`NewRecord(k, v, PUT)`, at the write offset the store had before the `Put`)
are in the log at that offset, after the `Put` and still after the
`Delete`. -/
theorem C5_delete_hides_key (fs fs1 fs2 : FS) (db db1 db2 : MiniBitcask) (k v : List Byte)
    (hk : k ≠ [])
    (hput : db.Put fs k v = Except.ok (none, fs1, db1))
    (hdel : db1.Delete fs1 k = Except.ok (none, fs2, db2)) :
    db2.Get fs2 k = Except.ok (([], some GoError.ErrKeyNotFound), db2) ∧
    ∃ dbf enc, db.dbFile = some dbf ∧ (NewRecord k v PUT).Encode = Except.ok (enc, none) ∧
      ((fs1.content dbf.file.ino).drop dbf.Offset.toNat).take enc.length = enc ∧
      ((fs2.content dbf.file.ino).drop dbf.Offset.toNat).take enc.length = enc ∧
      db2.dbFile.map (fun d => d.file) = some dbf.file := by
  obtain ⟨dbf, dbf1, hdb, hw, rfl⟩ := Put_ok fs fs1 db _ k v none hk hput
  obtain ⟨enc, n, henc, hwa, rfl⟩ := Write_ok _ _ _ _ _ _ hw
  obtain ⟨_, hlen, h10⟩ := Encode_ok _ _ _ henc
  have hne : enc ≠ [] := by intro h; simp [h] at h10
  obtain ⟨_, hoff, hc1, _, _⟩ := WriteAt_ok _ _ _ _ _ _ hwa hne
  have hin : (db.indexes.set k dbf.Offset) k = some dbf.Offset := by simp [Index.set]
  obtain ⟨dbf', dbf2, hdb', hw2, rfl⟩ := Delete_ok fs1 fs2 _ _ k dbf.Offset hk hin hdel
  simp only [Option.some.injEq] at hdb'
  subst hdb'
  obtain ⟨enc2, n2, henc2, hwa2, rfl⟩ := Write_ok _ _ _ _ _ _ hw2
  obtain ⟨_, _, h10'⟩ := Encode_ok _ _ _ henc2
  have hne2 : enc2 ≠ [] := by intro h; simp [h] at h10'
  obtain ⟨_, _, hc2, _, _⟩ := WriteAt_ok _ _ _ _ _ _ hwa2 hne2
  refine ⟨Get_absent _ _ _ hk (by simp [Index.delete]), dbf, enc, hdb, henc, ?_, ?_, rfl⟩
  · rw [hc1]; exact writeBytes_at _ _ _
  · simp only at hc2
    rw [hc2, writeBytes_window, hc1]
    · exact writeBytes_at _ _ _
    · omega
    · rw [hc1]; exact writeBytes_length _ _ _

theorem C5_delete_hides_key_witness :
    ([107] : List Byte) ≠ [] ∧
    dbFresh.Put fsEmptyLog [107] [97] = Except.ok (none, fsPut, dbPut) ∧
    dbPut.Delete fsPut [107] = Except.ok (none, fsPutDel, dbPutDel) ∧
    (dbPutDel.Get fsPutDel [107] = Except.ok (([], some GoError.ErrKeyNotFound), dbPutDel) ∧
    ∃ dbf enc, dbFresh.dbFile = some dbf ∧
      (NewRecord [107] [97] PUT).Encode = Except.ok (enc, none) ∧
      ((fsPut.content dbf.file.ino).drop dbf.Offset.toNat).take enc.length = enc ∧
      ((fsPutDel.content dbf.file.ino).drop dbf.Offset.toNat).take enc.length = enc ∧
      dbPutDel.dbFile.map (fun d => d.file) = some dbf.file) :=
  ⟨by decide, rfl, rfl,
    C5_delete_hides_key fsEmptyLog fsPut fsPutDel dbFresh dbPut dbPutDel [107] [97] (by decide)
      rfl rfl⟩

/-- C6: for every store state and every key `k` that the index does not hold
(the empty key included), `Delete(k)` returns no error and leaves the file
system (log bytes), the store (write offset, index) unchanged; so a second
`Delete(k)` has the same outcome as the first alone. -/
theorem C6_delete_absent_noop (fs : FS) (db : MiniBitcask) (k : List Byte)
    (hin : db.indexes k = none) :
    db.Delete fs k = Except.ok (none, fs, db) ∧
    (db.Delete fs k >>= fun r => r.2.2.Delete r.2.1 k) = db.Delete fs k := by
  have h := Delete_absent fs db k hin
  refine ⟨h, ?_⟩
  rw [h]
  simp only [bind, Except.bind]
  exact h

theorem C6_delete_absent_noop_witness :
    dbFresh.indexes [107] = none ∧
    (dbFresh.Delete fsEmptyLog [107] = Except.ok (none, fsEmptyLog, dbFresh) ∧
    (dbFresh.Delete fsEmptyLog [107] >>= fun r => r.2.2.Delete r.2.1 [107])
      = dbFresh.Delete fsEmptyLog [107]) :=
  ⟨by decide, C6_delete_absent_noop fsEmptyLog dbFresh [107] (by decide)⟩

/-- C7 (the code departs from the claim): after `Put("k", "a")` on the store
opened on an empty log the in-memory index maps `k` to offset 0, but
`loadIndexes` run with a fresh empty index and a new `DBFile` over the
resulting log panics in its first `DBFile.Read` and yields no index; it does
so already over the empty log. -/
theorem C7_loadIndexes_panics (fuel : Nat) :
    dbFresh.Put fsEmptyLog [107] [97] = Except.ok (none, fsPut, dbPut) ∧
    dbPut.indexes [107] = some 0 ∧
    fsPut.content 0 = [0, 0, 0, 1, 0, 0, 0, 1, 0, 0, 107, 97] ∧
    dbReopened.dbFile = some
      { file := { name := ["db", BitCaskFileName], ino := 0, closed := false }
        Offset := 12, HeaderBufPool := [] } ∧
    dbReopened.loadIndexes fsPut (fuel + 1) = Except.error Panic.typeAssert ∧
    dbFresh.loadIndexes fsEmptyLog (fuel + 1) = Except.error Panic.typeAssert := by
  refine ⟨rfl, by decide, by decide, rfl, rfl, rfl⟩

/-- C9 (the code departs from the claim): `Write` of the well-formed record
`NewRecord("k", "v", PUT)` to the empty log at offset 0 succeeds, and
`Read(0)` then panics at the type assertion on the pooled buffer; with a
`*[]byte` in the pool it panics as well, at the first use of the record's
fields, because the header is never decoded into the record. -/
theorem C9_read_after_write_panics :
    (CreateFile fsEmptyLog ["db"]).2.1 = some dbfFresh ∧
    recKV.WellFormed ∧
    dbfFresh.Write fsEmptyLog recKV = Except.ok (none, fsWritten, dbfWritten) ∧
    fsWritten.content 0 = [0, 0, 0, 1, 0, 0, 0, 1, 0, 0, 107, 118] ∧
    dbfWritten.Read fsWritten 0 = Except.error Panic.typeAssert ∧
    DBFile.Read fsWritten
      { dbfWritten with HeaderBufPool := [PoolItem.slicePtr (List.replicate entryHeaderSize 0)] } 0
      = Except.error Panic.nilDeref := by
  refine ⟨rfl, by decide, rfl, by decide, rfl, rfl⟩

/-- C10 (the code departs from the claim): on the empty log, where no byte
lies between offset 0 and the end of the file, `Read(0)` on the `DBFile` that
the constructor returns panics at the type assertion on the pooled buffer
instead of returning `io.EOF`; so it does at offset 5 of a 12-byte log and
beyond its end. -/
theorem C10_read_at_end_panics :
    (CreateFile fsEmptyLog ["db"]).2.1 = some dbfFresh ∧
    fsEmptyLog.content dbfFresh.file.ino = [] ∧
    dbfFresh.Read fsEmptyLog 0 = Except.error Panic.typeAssert ∧
    (fsWritten.content dbfWritten.file.ino).length = 12 ∧
    dbfWritten.Read fsWritten 5 = Except.error Panic.typeAssert ∧
    dbfWritten.Read fsWritten 12 = Except.error Panic.typeAssert := by
  refine ⟨rfl, rfl, rfl, by decide, rfl, rfl⟩

/-- With a header-sized `*[]byte` in the pool, `Read` at an offset that leaves
fewer than 10 bytes before the end of the file returns `io.EOF` and no
record. -/
theorem Read_end_of_log (fs : FS) (p : DBFile) (off : Int) (b : List Byte)
    (pool : List PoolItem) (hp : p.HeaderBufPool = PoolItem.slicePtr b :: pool)
    (hb : b.length = 10) (hc : p.file.closed = false) (h0 : 0 ≤ off)
    (hs : (fs.content p.file.ino).length < off.toNat + 10) :
    ∃ p1, p.Read fs off = Except.ok ((none, some GoError.EOF), p1) := by
  have hnot : ¬ off < 0 := by omega
  have hlt : (fs.content p.file.ino).length - off.toNat < b.length := by omega
  unfold DBFile.Read
  simp [hp, poolGet, OsFile.ReadAt, hc, hnot, hlt, bind, Except.bind, pure, Except.pure]

/-! ## The read defect in general -/

/-- `Get` of a non-empty key that the index holds panics on every store whose
`DBFile` has the pool the constructors leave. -/
theorem Get_indexed_fresh_pool (fs : FS) (db : MiniBitcask) (p : DBFile) (k : List Byte)
    (o : Int) (hk : k ≠ []) (hin : db.indexes k = some o) (hdb : db.dbFile = some p)
    (hp : p.HeaderBufPool = []) :
    db.Get fs k = Except.error Panic.typeAssert := by
  have hl : ¬ k.length = 0 := by simpa using hk
  unfold MiniBitcask.Get
  simp [hl, MiniBitcask.exist, hin, hdb, deref, Read_fresh_pool fs p o hp, bind, Except.bind,
    pure, Except.pure]

/-- `Get` of a non-empty key that the index holds never returns with a nil
error, whatever the store and the pool. -/
theorem Get_indexed_no_value (fs : FS) (db db1 : MiniBitcask) (k v : List Byte) (o : Int)
    (err : Option GoError) (hk : k ≠ []) (hin : db.indexes k = some o)
    (h : db.Get fs k = Except.ok ((v, err), db1)) :
    v = [] ∧ err.isSome = true := by
  have hl : ¬ k.length = 0 := by simpa using hk
  unfold MiniBitcask.Get at h
  simp only [hl, if_false, MiniBitcask.exist, hin, bind, Except.bind, pure, Except.pure] at h
  cases hdb : db.dbFile with
  | none => simp [hdb, deref, throw, throwThe, MonadExceptOf.throw] at h
  | some p =>
    simp only [hdb, deref, pure, Except.pure] at h
    cases hr : p.Read fs o with
    | error e => simp [hr] at h
    | ok w =>
      obtain ⟨⟨r, e⟩, p1⟩ := w
      obtain ⟨rfl, he⟩ := Read_no_record fs p p1 o r e hr
      simp only [hr] at h
      cases e with
      | none => simp at he
      | some e =>
        by_cases c : e = GoError.EOF
        · subst c
          simp at h
          exact ⟨h.1.1, by rw [← h.1.2]; rfl⟩
        · simp [c] at h
          exact ⟨h.1.1, by rw [← h.1.2]; rfl⟩

/-- `loadIndexes` panics on every store whose `DBFile` has the pool the
constructors leave. -/
theorem loadIndexes_fresh_pool (fs : FS) (db : MiniBitcask) (p : DBFile) (fuel : Nat)
    (hdb : db.dbFile = some p) (hp : p.HeaderBufPool = []) :
    db.loadIndexes fs (fuel + 1) = Except.error Panic.typeAssert := by
  unfold MiniBitcask.loadIndexes
  simp [hdb, MiniBitcask.loadIndexesLoop, deref, Read_fresh_pool fs p 0 hp, bind, Except.bind,
    pure, Except.pure]

/-- Whenever `Write` returns, with an error or without, the offset has
advanced by the size of the record, which is at least the header size. -/
theorem Write_offset (fs fs1 : FS) (p p1 : DBFile) (r : Record) (err : Option GoError)
    (h : p.Write fs r = Except.ok (err, fs1, p1)) :
    p1.Offset = p.Offset + r.GetSize ∧ 10 ≤ r.GetSize := by
  obtain ⟨enc, n, henc, _, rfl⟩ := Write_ok fs fs1 p p1 r err h
  obtain ⟨_, hlen, h10⟩ := Encode_ok r enc none henc
  exact ⟨rfl, by omega⟩

/-- C11 (the code departs from the claim): on the empty log, with a device
that fails the next write, `Write` of `NewRecord("k", "v", PUT)` returns the
write error and leaves the file empty, but the `Offset` of the `DBFile` has
advanced from 0 to 12. -/
theorem C11_failed_write_advances_offset :
    dbfFresh.Offset = 0 ∧
    dbfFresh.Write fsFailing recKV =
      Except.ok (some GoError.writeFailed, fsWriteFailed, dbfWriteFailed) ∧
    fsWriteFailed.content dbfFresh.file.ino = [] ∧
    dbfWriteFailed.Offset = 12 := by
  refine ⟨rfl, rfl, by decide, by decide⟩

theorem writeBytes_end (data b : List Byte) : writeBytes data data.length b = data ++ b := by
  simp [writeBytes]

/-- `Put` of a non-empty key returns, with no error, when the log file is
open, the write offset is not negative, the device does not fail the next
write and the record fits 32 bits. -/
theorem Put_returns (fs : FS) (db : MiniBitcask) (dbf : DBFile) (k v : List Byte)
    (hdb : db.dbFile = some dbf) (hk : k ≠ []) (hopen : dbf.file.closed = false)
    (hoff : 0 ≤ dbf.Offset) (hdev : ∀ n rest, fs.wfaults ≠ some n :: rest)
    (hsz : 10 + k.length + v.length < 2 ^ 32) :
    ∃ fs1 db1, db.Put fs k v = Except.ok (none, fs1, db1) := by
  have hl : ¬ k.length = 0 := by simpa using hk
  have hks : k.length % 2 ^ 32 = k.length := Nat.mod_eq_of_lt (by omega)
  have hvs : v.length % 2 ^ 32 = v.length := Nat.mod_eq_of_lt (by omega)
  have henc := Encode_eq_layout (NewRecord k v PUT) hks hvs
    (by simp only [NewRecord, hks, hvs]; exact hsz)
  have hne : (NewRecord k v PUT).layout ≠ [] := by
    intro h
    have := congrArg List.length h
    simp [Record.layout, beBytes32, beBytes16] at this
  have hno : ¬ dbf.Offset < 0 := by omega
  unfold MiniBitcask.Put
  simp only [hl, if_false, hdb, deref, DBFile.Write, henc, bind, Except.bind, pure, Except.pure,
    Option.isSome_none, Bool.false_eq_true, OsFile.WriteAt, hopen, hno, hne]
  cases hw : fs.wfaults with
  | nil => exact ⟨_, _, rfl⟩
  | cons a rest =>
    cases a with
    | none => exact ⟨_, _, rfl⟩
    | some n => exact absurd hw (hdev n rest)

/-! ## Record construction -/

theorem bigKey_length : bigKey.length = 4294967297 := by
  unfold bigKey; exact List.length_replicate _ _

theorem bigKey_take : bigKey.take 1 = [0] := by
  unfold bigKey
  rw [List.take_replicate]
  rfl

theorem bigKey_ne_nil : bigKey ≠ [] := by
  intro h
  have := congrArg List.length h
  rw [bigKey_length] at this
  simp at this

theorem bigKey_ne_singleton (b : Byte) : [b] ≠ bigKey := by
  intro h
  have := congrArg List.length h
  rw [bigKey_length] at this
  simp at this

/-- C17 (as stated, refuted): for a key of `2 ^ 32 + 1` bytes `NewRecord`
returns a record, with `KeySize = 1`: the length is truncated to 32 bits and
the key is not rejected. -/
theorem C17_newrecord_truncates :
    bigKey.length = 4294967297 ∧
    (NewRecord bigKey [] PUT).Key = bigKey ∧
    (NewRecord bigKey [] PUT).KeySize = 1 ∧
    (NewRecord bigKey [] PUT).KeySize ≠ bigKey.length := by
  have h : (NewRecord bigKey [] PUT).KeySize = 1 := by
    simp only [NewRecord, bigKey_length]
    norm_num
  refine ⟨bigKey_length, rfl, h, ?_⟩
  rw [h, bigKey_length]
  decide

/-- C17 (amended): for every key, value and mark, `NewRecord` returns the
record holding them with `KeySize = len(key) mod 2 ^ 32` and
`ValueSize = len(value) mod 2 ^ 32`; so `KeySize = len(key)` when the key is
shorter than `2 ^ 32` bytes and `ValueSize = len(value)` when the value is,
and `ValueSize = 0` for the DEL record that `Delete` builds from a nil
value.  No length is rejected. -/
theorem C17_newrecord_sizes (key value : List Byte) (mark : Nat) :
    (NewRecord key value mark).Key = key ∧
    (NewRecord key value mark).Value = value ∧
    (NewRecord key value mark).Mark = mark ∧
    (NewRecord key value mark).KeySize = key.length % 2 ^ 32 ∧
    (NewRecord key value mark).ValueSize = value.length % 2 ^ 32 ∧
    (key.length < 2 ^ 32 → (NewRecord key value mark).KeySize = key.length) ∧
    (value.length < 2 ^ 32 → (NewRecord key value mark).ValueSize = value.length) ∧
    (NewRecord key [] DEL).ValueSize = 0 := by
  refine ⟨rfl, rfl, rfl, rfl, rfl, ?_, ?_, rfl⟩
  · intro h; exact Nat.mod_eq_of_lt h
  · intro h; exact Nat.mod_eq_of_lt h

theorem copyInto_append_take (a src : List Byte) (m hi n : Nat) (hn : n ≤ m)
    (hs : n ≤ src.length) (hhi : hi = a.length + n) :
    copyInto (a ++ List.replicate m 0) a.length hi src
      = Except.ok ((a ++ src.take n) ++ List.replicate (m - n) 0) := by
  subst hhi
  have h1 : a.length ≤ a.length + n ∧
      a.length + n ≤ (a ++ List.replicate m (0 : Byte)).length := by
    simp; omega
  have h2 : (src.take n).length = n := by simp; omega
  simp only [copyInto, checkSlice, h1, and_self, if_true]
  simp only [Nat.add_sub_cancel_left, bind, Except.bind, pure, Except.pure, storeAt_append, h2]

/-- `Encode` of a record whose key and value are at least as long as its
size fields say: the header, then the first `KeySize` bytes of the key and
the first `ValueSize` bytes of the value. -/
theorem Encode_eq_take (r : Record) (hk : r.KeySize ≤ r.Key.length)
    (hv : r.ValueSize ≤ r.Value.length) (hsz : 10 + r.KeySize + r.ValueSize < 2 ^ 32) :
    r.Encode = Except.ok
      (beBytes32 r.KeySize ++ beBytes32 r.ValueSize ++ beBytes16 r.Mark ++
        r.Key.take r.KeySize ++ r.Value.take r.ValueSize, none) := by
  have hn : r.GetSize.toNat = 10 + r.KeySize + r.ValueSize := by
    simp only [Record.GetSize, entryHeaderSize, Int.toNat_ofNat]
    rw [Nat.mod_eq_of_lt hsz]
  have hmod : (entryHeaderSize + r.KeySize) % 2 ^ 32 = 10 + r.KeySize := by
    simp only [entryHeaderSize]; rw [Nat.mod_eq_of_lt (by omega)]
  unfold Record.Encode
  rw [hn, hmod]
  have e1 := PutUint32_append [] (10 + r.KeySize + r.ValueSize) r.KeySize 4 (by omega) rfl
  simp only [List.nil_append, List.length_nil] at e1
  simp only [e1, bind, Except.bind]
  have e2 := PutUint32_append (beBytes32 r.KeySize) (10 + r.KeySize + r.ValueSize - 4)
    r.ValueSize 8 (by omega) rfl
  simp only [show (beBytes32 r.KeySize).length = 4 from rfl] at e2
  simp only [e2]
  have e3 := PutUint16_append (beBytes32 r.KeySize ++ beBytes32 r.ValueSize)
    (10 + r.KeySize + r.ValueSize - 4 - 4) r.Mark 10 (by omega) rfl
  simp only [show (beBytes32 r.KeySize ++ beBytes32 r.ValueSize).length = 8 from rfl] at e3
  simp only [e3]
  have e4 := copyInto_append_take
    (beBytes32 r.KeySize ++ beBytes32 r.ValueSize ++ beBytes16 r.Mark)
    r.Key (10 + r.KeySize + r.ValueSize - 4 - 4 - 2) (10 + r.KeySize) r.KeySize (by omega) hk rfl
  simp only [show (beBytes32 r.KeySize ++ beBytes32 r.ValueSize ++ beBytes16 r.Mark).length = 10
    from rfl] at e4
  simp only [entryHeaderSize, e4]
  have hl : (beBytes32 r.KeySize ++ beBytes32 r.ValueSize ++ beBytes16 r.Mark ++
      r.Key.take r.KeySize).length = 10 + r.KeySize := by
    simp [beBytes32, beBytes16]; omega
  have e5 := copyInto_append_take
    (beBytes32 r.KeySize ++ beBytes32 r.ValueSize ++ beBytes16 r.Mark ++ r.Key.take r.KeySize)
    r.Value (10 + r.KeySize + r.ValueSize - 4 - 4 - 2 - r.KeySize)
    ((beBytes32 r.KeySize ++ beBytes32 r.ValueSize ++ beBytes16 r.Mark ++ r.Key.take r.KeySize ++
      List.replicate (10 + r.KeySize + r.ValueSize - 4 - 4 - 2 - r.KeySize) 0).length)
    r.ValueSize (by omega) hv (by simp only [List.length_append, List.length_replicate, hl]; omega)
  rw [hl] at e5
  simp only [e5]
  have hz : 10 + r.KeySize + r.ValueSize - 4 - 4 - 2 - r.KeySize - r.ValueSize = 0 := by
    omega
  simp [hz, pure, Except.pure]

/-! ## Put and Delete on a device that accepts the write -/

/-- The outcome of `Put` for a non-empty key when the file is open, the
offset is not negative and no write fault is pending. -/
theorem Put_eq (fs : FS) (db : MiniBitcask) (dbf : DBFile) (k v enc : List Byte)
    (hdb : db.dbFile = some dbf) (hk : k ≠ []) (hopen : dbf.file.closed = false)
    (hoff : 0 ≤ dbf.Offset) (hdev : fs.wfaults = [])
    (henc : (NewRecord k v PUT).Encode = Except.ok (enc, none)) :
    db.Put fs k v = Except.ok (none,
      fs.setContent dbf.file.ino (writeBytes (fs.content dbf.file.ino) dbf.Offset.toNat enc),
      { indexes := db.indexes.set k dbf.Offset
        dbFile := some { dbf with Offset := dbf.Offset + (NewRecord k v PUT).GetSize }
        dirPath := db.dirPath }) := by
  have hl : ¬ k.length = 0 := by simpa using hk
  obtain ⟨_, _, h10⟩ := Encode_ok _ _ _ henc
  have hne : enc ≠ [] := by intro h; simp [h] at h10
  have hno : ¬ dbf.Offset < 0 := by omega
  unfold MiniBitcask.Put
  simp only [hl, if_false, hdb, deref, DBFile.Write, henc, bind, Except.bind, pure, Except.pure,
    Option.isSome_none, Bool.false_eq_true, OsFile.WriteAt, hopen, hno, hne, hdev]

/-- The outcome of `Delete` for a non-empty key of the index when the file is
open, the offset is not negative and no write fault is pending. -/
theorem Delete_eq (fs : FS) (db : MiniBitcask) (dbf : DBFile) (k enc : List Byte) (o : Int)
    (hdb : db.dbFile = some dbf) (hk : k ≠ []) (hin : db.indexes k = some o)
    (hopen : dbf.file.closed = false) (hoff : 0 ≤ dbf.Offset) (hdev : fs.wfaults = [])
    (henc : (NewRecord k [] DEL).Encode = Except.ok (enc, none)) :
    db.Delete fs k = Except.ok (none,
      fs.setContent dbf.file.ino (writeBytes (fs.content dbf.file.ino) dbf.Offset.toNat enc),
      { indexes := db.indexes.delete k
        dbFile := some { dbf with Offset := dbf.Offset + (NewRecord k [] DEL).GetSize }
        dirPath := db.dirPath }) := by
  have hl : ¬ k.length = 0 := by simpa using hk
  obtain ⟨_, _, h10⟩ := Encode_ok _ _ _ henc
  have hne : enc ≠ [] := by intro h; simp [h] at h10
  have hno : ¬ dbf.Offset < 0 := by omega
  unfold MiniBitcask.Delete
  simp only [hl, if_false, MiniBitcask.exist, hin, hdb, deref, DBFile.Write, henc, bind,
    Except.bind, pure, Except.pure, Option.isSome_none, Bool.false_eq_true, OsFile.WriteAt,
    hopen, hno, hne, hdev]
  simp

theorem Encode_bigKey (mark : Nat) :
    (NewRecord bigKey [] mark).Encode
      = Except.ok (beBytes32 1 ++ beBytes32 0 ++ beBytes16 mark ++ [0], none) := by
  have hks : (NewRecord bigKey [] mark).KeySize = 1 := by
    simp only [NewRecord, bigKey_length]; norm_num
  have hvs : (NewRecord bigKey [] mark).ValueSize = 0 := rfl
  have h := Encode_eq_take (NewRecord bigKey [] mark)
    (by rw [hks]; show 1 ≤ bigKey.length; rw [bigKey_length]; norm_num)
    (by rw [hvs]; exact Nat.zero_le _) (by rw [hks, hvs]; norm_num)
  rw [hks, hvs] at h
  rw [h]
  have hk : (NewRecord bigKey [] mark).Key = bigKey := rfl
  have hm : (NewRecord bigKey [] mark).Mark = mark := rfl
  rw [hk, hm, bigKey_take]
  simp

theorem GetSize_bigKey (mark : Nat) : (NewRecord bigKey [] mark).GetSize = 11 := by
  simp only [Record.GetSize, NewRecord, bigKey_length, entryHeaderSize]
  norm_num

/-- `Put(bigKey, nil)` on the fresh store succeeds and appends an 11-byte
record. -/
theorem Put_bigKey : dbFresh.Put fsEmptyLog bigKey [] = Except.ok (none, fsBig, dbBig) := by
  rw [Put_eq fsEmptyLog dbFresh dbfFresh bigKey [] _ rfl bigKey_ne_nil rfl (by decide) rfl
    (Encode_bigKey PUT), GetSize_bigKey]
  rfl

/-- `Delete(bigKey)` after `Put(bigKey, nil)` succeeds and appends an 11-byte
record. -/
theorem Delete_bigKey : dbBig.Delete fsBig bigKey = Except.ok (none, fsBigDel, dbBigDel) := by
  have hin : dbBig.indexes bigKey = some 0 := by
    simp only [dbBig, Index.set, if_true]
  rw [Delete_eq fsBig dbBig { dbfFresh with Offset := 11 } bigKey _ 0 rfl bigKey_ne_nil hin rfl
    (by decide) rfl (Encode_bigKey DEL), GetSize_bigKey]
  rfl

/-! ## Delete postcondition -/

/-- C13 (as stated, refuted), on two inputs.  First, after a `Put("k", "a")`
whose write failed, the key is in the index, the log is empty and the write
offset is 12: `Delete("k")` succeeds and leaves a log of 12 zero bytes
followed by the DEL record, not the old log followed by the DEL record.
Second, after `Put(bigKey, nil)` for a key of `2 ^ 32 + 1` bytes,
`Delete(bigKey)` succeeds and appends a DEL record of 11 bytes, not of
`10 + len(bigKey)` bytes. -/
theorem C13_delete_counterexample :
    (dbFresh.Put fsFailing [107] [97]
        = Except.ok (some GoError.writeFailed, fsPutFailed, dbPutFailed) ∧
      dbPutFailed.indexes [107] = some 0 ∧
      fsPutFailed.content 0 = [] ∧
      dbPutFailed.Delete fsPutFailed [107] = Except.ok (none, fsFailDel, dbFailDel) ∧
      fsFailDel.content 0 = List.replicate 12 0 ++ [0, 0, 0, 1, 0, 0, 0, 0, 0, 1, 107] ∧
      fsFailDel.content 0 ≠ fsPutFailed.content 0 ++ [0, 0, 0, 1, 0, 0, 0, 0, 0, 1, 107]) ∧
    (dbFresh.Put fsEmptyLog bigKey [] = Except.ok (none, fsBig, dbBig) ∧
      bigKey ≠ [] ∧
      dbBig.indexes bigKey = some 0 ∧
      dbBig.Delete fsBig bigKey = Except.ok (none, fsBigDel, dbBigDel) ∧
      fsBigDel.content 0 = fsBig.content 0 ++ [0, 0, 0, 1, 0, 0, 0, 0, 0, 1, 0] ∧
      (11 : Nat) ≠ 10 + bigKey.length) := by
  refine ⟨⟨rfl, by decide, by decide, rfl, by decide, by decide⟩,
    ⟨Put_bigKey, bigKey_ne_nil, ?_, Delete_bigKey, by decide, ?_⟩⟩
  · simp only [dbBig, Index.set, if_true]
  · rw [bigKey_length]; decide

/-- C13 (amended): for every store state whose write offset equals the log
length and every non-empty key `k` shorter than `2 ^ 32` bytes that the index
holds, a `Delete(k)` that returns no error leaves the log equal to the old
log followed by one DEL record for `k` with `ValueSize` 0 and no value bytes
(`10 + len(k)` bytes in total), so that no byte of the old log is modified;
it removes `k` from the index, leaves the index entry of every other key and
every other file unchanged, and advances the write offset by
`10 + len(k)`. -/
theorem C13_delete_postcondition (fs fs1 : FS) (db db1 : MiniBitcask) (dbf : DBFile)
    (k : List Byte) (o : Int) (hdb : db.dbFile = some dbf)
    (hoff : dbf.Offset = ((fs.content dbf.file.ino).length : Int))
    (hk : k ≠ []) (hlen : k.length < 2 ^ 32) (hin : db.indexes k = some o)
    (hdel : db.Delete fs k = Except.ok (none, fs1, db1)) :
    fs1.content dbf.file.ino = fs.content dbf.file.ino ++
      Record.layout { Key := k, Value := [], KeySize := k.length, ValueSize := 0, Mark := DEL } ∧
    (Record.layout
      { Key := k, Value := [], KeySize := k.length, ValueSize := 0, Mark := DEL }).length
        = 10 + k.length ∧
    (fs1.content dbf.file.ino).take (fs.content dbf.file.ino).length = fs.content dbf.file.ino ∧
    db1.indexes k = none ∧
    (∀ k', k' ≠ k → db1.indexes k' = db.indexes k') ∧
    (∀ i, i ≠ dbf.file.ino → fs1.content i = fs.content i) ∧
    db1.dbFile = some { dbf with Offset := dbf.Offset + ((10 + k.length : Nat) : Int) } := by
  obtain ⟨dbf', dbf1, hdb', hw, rfl⟩ := Delete_ok fs fs1 db db1 k o hk hin hdel
  rw [hdb] at hdb'
  simp only [Option.some.injEq] at hdb'
  subst hdb'
  obtain ⟨enc, n, henc, hwa, rfl⟩ := Write_ok _ _ _ _ _ _ hw
  obtain ⟨_, hsize, h10⟩ := Encode_ok _ _ _ henc
  have hne : enc ≠ [] := by intro h; simp [h] at h10
  obtain ⟨_, _, hc, hothers, _⟩ := WriteAt_ok _ _ _ _ _ _ hwa hne
  have hks : k.length % 2 ^ 32 = k.length := Nat.mod_eq_of_lt hlen
  have hrec : NewRecord k [] DEL
      = { Key := k, Value := [], KeySize := k.length, ValueSize := 0, Mark := DEL } := by
    simp only [NewRecord, hks, List.length_nil, Nat.zero_mod]
  have hg : (NewRecord k [] DEL).GetSize = (((10 + k.length) % 2 ^ 32 : Nat) : Int) := by
    simp only [Record.GetSize, NewRecord, hks, entryHeaderSize, List.length_nil, Nat.zero_mod,
      Nat.add_zero]
  have hfit : 10 + k.length < 2 ^ 32 := by
    rw [hg] at hsize
    have h2 : enc.length = (10 + k.length) % 2 ^ 32 := by exact_mod_cast hsize
    omega
  have hlay := Encode_eq_layout (NewRecord k [] DEL) hks rfl
    (by simp only [NewRecord, hks, List.length_nil, Nat.zero_mod]; omega)
  rw [henc] at hlay
  simp only [Except.ok.injEq, Prod.mk.injEq, and_true] at hlay
  rw [hrec] at hlay
  have hlaylen : (Record.layout
      { Key := k, Value := [], KeySize := k.length, ValueSize := 0, Mark := DEL }).length
        = 10 + k.length := by
    simp [Record.layout, beBytes32, beBytes16]; omega
  have hcontent : fs1.content dbf.file.ino = fs.content dbf.file.ino ++ Record.layout
      { Key := k, Value := [], KeySize := k.length, ValueSize := 0, Mark := DEL } := by
    rw [hc, hoff, Int.toNat_ofNat, writeBytes_end, hlay]
  refine ⟨hcontent, hlaylen, ?_, by simp [Index.delete], ?_, hothers, ?_⟩
  · rw [hcontent, List.take_left]
  · intro k' hk'
    simp [Index.delete, hk']
  · rw [hg, Nat.mod_eq_of_lt hfit]

theorem C13_delete_postcondition_witness :
    dbPut.dbFile = some { dbfFresh with Offset := 12 } ∧
    (12 : Int) = ((fsPut.content dbfFresh.file.ino).length : Int) ∧
    ([107] : List Byte) ≠ [] ∧ ([107] : List Byte).length < 2 ^ 32 ∧
    dbPut.indexes [107] = some 0 ∧
    dbPut.Delete fsPut [107] = Except.ok (none, fsPutDel, dbPutDel) ∧
    (fsPutDel.content dbfFresh.file.ino = fsPut.content dbfFresh.file.ino ++
      Record.layout
        { Key := [107], Value := [], KeySize := ([107] : List Byte).length, ValueSize := 0,
          Mark := DEL } ∧
    (Record.layout
      { Key := [107], Value := [], KeySize := ([107] : List Byte).length, ValueSize := 0,
        Mark := DEL }).length = 10 + ([107] : List Byte).length ∧
    (fsPutDel.content dbfFresh.file.ino).take (fsPut.content dbfFresh.file.ino).length
      = fsPut.content dbfFresh.file.ino ∧
    dbPutDel.indexes [107] = none ∧
    (∀ k', k' ≠ [107] → dbPutDel.indexes k' = dbPut.indexes k') ∧
    (∀ i, i ≠ dbfFresh.file.ino → fsPutDel.content i = fsPut.content i) ∧
    dbPutDel.dbFile = some
      { dbfFresh with Offset := (12 : Int) + ((10 + ([107] : List Byte).length : Nat) : Int) }) :=
  ⟨rfl, by decide, by decide, by decide, by decide, rfl,
    C13_delete_postcondition fsPut fsPutDel dbPut dbPutDel { dbfFresh with Offset := 12 } [107] 0
      rfl (by decide) (by decide) (by decide) (by decide) rfl⟩

/-! ## Open -/

/-- The `DBFile` that `NewDBFile` returns has a pool that holds nothing. -/
theorem NewDBFile_pool (fs fs1 : FS) (path : Path) (dbf : DBFile) (err : Option GoError)
    (h : NewDBFile fs path = (fs1, some dbf, err)) : dbf.HeaderBufPool = [] := by
  unfold NewDBFile at h
  split at h
  · split at h
    · simp only [Prod.mk.injEq, Option.some.injEq] at h
      rw [← h.2.1]
    · simp at h
  · simp at h

/-- `Open` never returns a store: it returns an error, panics in
`loadIndexes`, or runs out of fuel. -/
theorem Open_no_store (fs fs1 : FS) (dirPath : Path) (fuel : Nat) (db : MiniBitcask)
    (err : Option GoError) : Open fs dirPath fuel ≠ Except.ok (some (fs1, some db, err)) := by
  intro h
  unfold Open at h
  generalize (if (Stat fs dirPath).2 = some GoError.notExist then MkdirAll fs dirPath
    else (fs, none)) = pre at h
  obtain ⟨fs0, e0⟩ := pre
  cases e0 with
  | some e => simp [bind, Except.bind, pure, Except.pure] at h
  | none =>
    simp only [bind, Except.bind, pure, Except.pure, Abs, Option.isSome_none,
      Bool.false_eq_true, if_false] at h
    rcases hnew : NewDBFile fs0 dirPath with ⟨fs2, dbFile, e⟩
    simp only [hnew] at h
    cases e with
    | some e1 => simp at h
    | none =>
      simp only [Option.isSome_none, Bool.false_eq_true, if_false] at h
      cases dbFile with
      | none => simp [MiniBitcask.loadIndexes, pure, Except.pure] at h
      | some dbf =>
        have hp := NewDBFile_pool _ _ _ _ _ hnew
        cases fuel with
        | zero =>
          simp [MiniBitcask.loadIndexes, MiniBitcask.loadIndexesLoop, pure, Except.pure] at h
        | succ n =>
          have hl := loadIndexes_fresh_pool fs2
            { indexes := Index.empty, dbFile := some dbf, dirPath := dirPath } dbf n rfl hp
          simp [hl] at h

/-- C15 (the code departs from the claim): `Open` of the directory `db`
passes the directory itself to `NewDBFile`, so it fails with "is a
directory": it does not open the log `db/minibitcask.data` where that file
exists and does not create it where the file, or the directory, is absent;
given the path of the log file it opens that file and panics in
`loadIndexes`.
`CreateFile`, which joins the file name, is the sibling that opens the
canonical file.  The locked part of `Merge` reopens `db.dirPath` in the same
way: after the rename put the 12-byte merge file under the canonical name,
the reopening fails with "is a directory" and the store keeps the closed
handle of the old log with write offset 24. -/
theorem C15_open_passes_directory (fuel : Nat) :
    fsEmptyLog.lookup (Join ["db"] BitCaskFileName) = some (Node.file 0) ∧
    Open fsEmptyLog ["db"] fuel
      = Except.ok (some (fsEmptyLog, none, some GoError.isDirectory)) ∧
    (CreateFile fsEmptyLog ["db"]).2.1 = some dbfFresh ∧
    dbfFresh.file.name = Join ["db"] BitCaskFileName ∧
    Open fsDirOnly ["db"] fuel = Except.ok (some (fsDirOnly, none, some GoError.isDirectory)) ∧
    fsDirOnly.lookup (Join ["db"] BitCaskFileName) = none ∧
    (Open fsBare ["db"] fuel).map (fun r => r.map (fun x => (x.1.names, x.2.1.isSome, x.2.2)))
      = Except.ok (some ([(["db"], Node.dir)], false, some GoError.isDirectory)) ∧
    Open fsEmptyLog (Join ["db"] BitCaskFileName) (fuel + 1) = Except.error Panic.typeAssert ∧
    NewMergeDBFile fsPutPut ["db"] = (fsMergeOpen, some dbfMerge, none) ∧
    dbPutPut.mergeLocked fsMergeOpen dbfMerge [recKB]
      = Except.ok (some GoError.isDirectory, fsSwapped, dbSwapped) ∧
    fsSwapped.lookup (Join ["db"] BitCaskFileName) = some (Node.file 1) ∧
    fsSwapped.content 1 = [0, 0, 0, 1, 0, 0, 0, 1, 0, 0, 107, 98] ∧
    dbSwapped.dbFile = some
      { file := { name := Join ["db"] BitCaskFileName, ino := 0, closed := true }
        Offset := 24, HeaderBufPool := [] } := by
  refine ⟨by decide, rfl, rfl, rfl, rfl, by decide, rfl, rfl, rfl, rfl, by decide, by decide,
    rfl⟩

/-! ## Read of a truncated record, and recovery -/

/-- C16 (the code departs from the claim): on a 12-byte log whose header is
complete and announces a 5-byte key of which 2 bytes are there, `Read(0)`
panics at the type assertion on the pooled buffer, and with a `*[]byte` in
the pool at the nil record, instead of returning an error; `loadIndexes`
panics with it.  The payload reads that follow in `Read` would return the
error of `ReadAt` as it is, which for this short read is `io.EOF`, the very
sentinel the scans test. -/
theorem C16_truncated_payload_panics (fuel : Nat) :
    (CreateFile fsTruncated ["db"]).2.1 = some dbfTruncated ∧
    Decode ((fsTruncated.content 0).take 10) = Except.ok (some hdrTruncated, none) ∧
    (fsTruncated.content 0).length = 12 ∧
    dbfTruncated.Read fsTruncated 0 = Except.error Panic.typeAssert ∧
    DBFile.Read fsTruncated
      { dbfTruncated with HeaderBufPool := [PoolItem.slicePtr (List.replicate entryHeaderSize 0)] }
      0 = Except.error Panic.nilDeref ∧
    dbfTruncated.readPayload fsTruncated hdrTruncated 10
      = Except.ok (none, some GoError.EOF) ∧
    MiniBitcask.loadIndexes fsTruncated
      { indexes := Index.empty, dbFile := some dbfTruncated, dirPath := ["db"] } (fuel + 1)
      = Except.error Panic.typeAssert := by
  refine ⟨rfl, rfl, by decide, rfl, rfl, rfl, rfl⟩

/-- C18 (the code departs from the claim): over the log that is the
concatenation of the encodings of the well-formed records
`NewRecord("k", "a", PUT)` and `NewRecord("k", "b", PUT)`, `loadIndexes` with
an empty index and a new `DBFile` panics in its first `DBFile.Read` instead
of ending with the index that maps `k` to 12. -/
theorem C18_recovery_panics (fuel : Nat) :
    (NewRecord [107] [97] PUT).WellFormed ∧ recKB.WellFormed ∧
    fsPutPut.content 0 = (NewRecord [107] [97] PUT).layout ++ recKB.layout ∧
    (NewRecord [107] [97] PUT).Encode = Except.ok ((NewRecord [107] [97] PUT).layout, none) ∧
    recKB.Encode = Except.ok (recKB.layout, none) ∧
    dbRecover.indexes = Index.empty ∧
    dbRecover.dbFile = some
      { file := { name := Join ["db"] BitCaskFileName, ino := 0, closed := false }
        Offset := 24, HeaderBufPool := [] } ∧
    dbRecover.loadIndexes fsPutPut (fuel + 1) = Except.error Panic.typeAssert := by
  refine ⟨by decide, by decide, by decide, rfl, rfl, rfl, rfl, rfl⟩

/-! ## The log as a sequence of records -/

theorem layout_length (r : Record) (hk : r.KeySize = r.Key.length)
    (hv : r.ValueSize = r.Value.length) : r.layout.length = 10 + r.KeySize + r.ValueSize := by
  simp [Record.layout, beBytes32, beBytes16, hk, hv]; omega

/-- Parsing reads back a well-formed record laid out at the front. -/
theorem parseRecord_layout (r : Record) (rest : List Byte) (hwf : r.WellFormed) :
    parseRecord (r.layout ++ rest) = some (r, rest) := by
  obtain ⟨hk, hv, hks, hvs, hm⟩ := hwf
  have hlen := layout_length r hk hv
  have t1 : (r.layout ++ rest).take 4 = beBytes32 r.KeySize := by
    simp [Record.layout, beBytes32]
  have t2 : ((r.layout ++ rest).drop 4).take 4 = beBytes32 r.ValueSize := by
    simp [Record.layout, beBytes32]
  have t3 : ((r.layout ++ rest).drop 8).take 2 = beBytes16 r.Mark := by
    simp [Record.layout, beBytes32, beBytes16]
  have hl10 : (beBytes32 r.KeySize ++ beBytes32 r.ValueSize ++ beBytes16 r.Mark).length = 10 := rfl
  have t4 : ((r.layout ++ rest).drop 10).take r.KeySize = r.Key := by
    have : r.layout ++ rest
        = (beBytes32 r.KeySize ++ beBytes32 r.ValueSize ++ beBytes16 r.Mark) ++
          (r.Key ++ (r.Value ++ rest)) := by
      simp [Record.layout]
    rw [this, ← hl10, List.drop_left, hk, List.take_left]
  have hl2 : (beBytes32 r.KeySize ++ beBytes32 r.ValueSize ++ beBytes16 r.Mark ++ r.Key).length
      = 10 + r.KeySize := by
    rw [List.length_append, hl10, hk]
  have t5 : ((r.layout ++ rest).drop (10 + r.KeySize)).take r.ValueSize = r.Value := by
    have : r.layout ++ rest
        = (beBytes32 r.KeySize ++ beBytes32 r.ValueSize ++ beBytes16 r.Mark ++ r.Key) ++
          (r.Value ++ rest) := by
      simp [Record.layout]
    rw [this, ← hl2, List.drop_left, hv, List.take_left]
  have t6 : (r.layout ++ rest).drop (10 + r.KeySize + r.ValueSize) = rest := by
    rw [← hlen, List.drop_left]
  have c1 : ¬ (r.layout ++ rest).length < 10 := by
    rw [List.length_append, hlen]; omega
  have c2 : ¬ (r.layout ++ rest).length < 10 + r.KeySize + r.ValueSize := by
    rw [List.length_append, hlen]; omega
  unfold parseRecord
  rw [if_neg c1, t1, t2, t3, beValue_beBytes32 _ hks, beValue_beBytes32 _ hvs,
    beValue_beBytes16 _ hm, if_neg c2, t4, t5, t6]

theorem parseRecord_nil : parseRecord [] = none := rfl

/-- Parsing the log that holds well-formed records gives these records with
their start offsets. -/
theorem parseLog_logOf (rs : List Record) (hwf : ∀ r ∈ rs, r.WellFormed) (fuel off : Nat)
    (hf : rs.length ≤ fuel) : parseLog fuel off (logOf rs) = withOffsets off rs := by
  induction rs generalizing fuel off with
  | nil =>
    cases fuel with
    | zero => rfl
    | succ n => simp [parseLog, logOf, parseRecord_nil, withOffsets]
  | cons r rs ih =>
    cases fuel with
    | zero => simp at hf
    | succ n =>
      have hr := hwf r (List.mem_cons_self _ _)
      simp only [logOf, parseLog, parseRecord_layout r (logOf rs) hr, withOffsets]
      rw [ih (fun x hx => hwf x (List.mem_cons_of_mem _ hx)) n _ (by simpa using hf)]

theorem logOf_length (rs : List Record) (hwf : ∀ r ∈ rs, r.WellFormed) :
    rs.length ≤ (logOf rs).length := by
  induction rs with
  | nil => simp [logOf]
  | cons r rs ih =>
    have hr := hwf r (List.mem_cons_self _ _)
    have := ih (fun x hx => hwf x (List.mem_cons_of_mem _ hx))
    simp only [logOf, List.length_append, List.length_cons, layout_length r hr.1 hr.2.1]
    omega

theorem logRecords_logOf (rs : List Record) (hwf : ∀ r ∈ rs, r.WellFormed) :
    logRecords (logOf rs) = withOffsets 0 rs :=
  parseLog_logOf rs hwf _ 0 (logOf_length rs hwf)

theorem logOf_append (rs : List Record) (r : Record) :
    logOf (rs ++ [r]) = logOf rs ++ r.layout := by
  induction rs with
  | nil => simp [logOf]
  | cons x xs ih => simp [logOf, ih]

theorem withOffsets_append (rs : List Record) (r : Record) (off : Nat)
    (hwf : ∀ x ∈ rs, x.WellFormed) :
    withOffsets off (rs ++ [r]) = withOffsets off rs ++ [(off + (logOf rs).length, r)] := by
  induction rs generalizing off with
  | nil => simp [withOffsets, logOf]
  | cons x xs ih =>
    have hx := hwf x (List.mem_cons_self _ _)
    have h := ih (off + (10 + x.KeySize + x.ValueSize))
      (fun y hy => hwf y (List.mem_cons_of_mem _ hy))
    show (off, x) :: withOffsets (off + (10 + x.KeySize + x.ValueSize)) (xs ++ [r]) = _
    rw [h]
    simp [withOffsets, logOf, layout_length x hx.1 hx.2.1, Nat.add_assoc]

theorem latestPut_append (l : List (Nat × Record)) (e : Nat × Record) (k : List Byte) :
    latestPut (l ++ [e]) k
      = if e.2.Key = k then (if e.2.Mark = PUT then some (e.1 : Int) else none)
        else latestPut l k := by
  simp [latestPut, List.foldl_append]

theorem withOffsets_mem (rs : List Record) (off : Nat) (e : Nat × Record)
    (h : e ∈ withOffsets off rs) : e.2 ∈ rs := by
  induction rs generalizing off with
  | nil => simp [withOffsets] at h
  | cons x xs ih =>
    simp only [withOffsets, List.mem_cons] at h
    rcases h with h | h
    · subst h; exact List.mem_cons_self _ _
    · exact List.mem_cons_of_mem _ (ih _ h)

/-- A key for which `latestPut` gives an offset is the key of a record. -/
theorem latestPut_mem (l : List (Nat × Record)) (k : List Byte) (o : Int)
    (h : latestPut l k = some o) : ∃ e ∈ l, e.2.Key = k := by
  induction l using List.reverseRecOn with
  | nil => simp [latestPut] at h
  | append_singleton xs x ih =>
    rw [latestPut_append] at h
    by_cases c : x.2.Key = k
    · exact ⟨x, List.mem_append_right _ (List.mem_singleton_self _), c⟩
    · simp only [c, if_false] at h
      obtain ⟨e, he, hk⟩ := ih h
      exact ⟨e, List.mem_append_left _ he, hk⟩

/-- The offset `latestPut` gives is the start of a record of the log. -/
theorem latestPut_bound (rs : List Record) (hwf : ∀ r ∈ rs, r.WellFormed) (k : List Byte)
    (o : Int) (h : latestPut (withOffsets 0 rs) k = some o) :
    0 ≤ o ∧ o < ((logOf rs).length : Int) := by
  induction rs using List.reverseRecOn with
  | nil => simp [withOffsets, latestPut] at h
  | append_singleton xs x ih =>
    have hxs : ∀ r ∈ xs, r.WellFormed := fun r hr => hwf r (List.mem_append_left _ hr)
    have hx := hwf x (List.mem_append_right _ (List.mem_singleton_self _))
    rw [withOffsets_append xs x 0 hxs, latestPut_append] at h
    rw [logOf_append, List.length_append, layout_length x hx.1 hx.2.1]
    by_cases c : x.Key = k
    · simp only [c, if_true] at h
      by_cases d : x.Mark = PUT
      · simp only [d, if_true, Option.some.injEq] at h
        subst h
        constructor
        · exact Int.ofNat_nonneg _
        · push_cast; omega
      · simp [d] at h
    · simp only [c, if_false] at h
      have := ih hxs h
      constructor
      · exact this.1
      · push_cast; omega

/-! ## The index invariant -/

theorem copyInto_bounds (buf b src : List Byte) (lo hi : Nat)
    (h : copyInto buf lo hi src = Except.ok b) : lo ≤ hi ∧ hi ≤ buf.length := by
  unfold copyInto checkSlice at h
  by_cases c : lo ≤ hi ∧ hi ≤ buf.length
  · exact c
  · simp [c, bind, Except.bind, throw, throwThe, MonadExceptOf.throw] at h

/-- When `Encode` returns for a record whose size fields fit 32 bits, the
total size fits 32 bits too: otherwise a slice expression panics. -/
theorem Encode_fits (r : Record) (enc : List Byte) (e : Option GoError)
    (h : r.Encode = Except.ok (enc, e)) (hks : r.KeySize < 2 ^ 32) (hvs : r.ValueSize < 2 ^ 32) :
    10 + r.KeySize + r.ValueSize < 2 ^ 32 := by
  unfold Record.Encode at h
  simp only [bind, Except.bind] at h
  split at h
  · exact absurd h (by simp)
  rename_i b1 h1
  split at h
  · exact absurd h (by simp)
  rename_i b2 h2
  split at h
  · exact absurd h (by simp)
  rename_i b3 h3
  split at h
  · exact absurd h (by simp)
  rename_i b4 h4
  have l1 := PutUint32_ok _ _ _ _ _ h1
  have l2 := PutUint32_ok _ _ _ _ _ h2
  have l3 := PutUint16_ok _ _ _ _ _ h3
  have l4 := copyInto_bounds _ _ _ _ _ h4
  simp only [List.length_replicate] at l1
  have hb3 : b3.length = (10 + r.KeySize + r.ValueSize) % 2 ^ 32 := by
    rw [l3.1, l2.1, l1.1]
    simp only [Record.GetSize, entryHeaderSize, Int.toNat_ofNat]
  rw [hb3] at l4
  simp only [entryHeaderSize] at l4
  omega

/-- A successful `Write` of `NewRecord(k, v, mark)` at the end of the log,
for a key shorter than `2 ^ 32` bytes, appends the layout of a well-formed
record with key `k`. -/
theorem Write_appends (fs fs1 : FS) (p p1 : DBFile) (k v : List Byte) (mark : Nat)
    (hm : mark < 2 ^ 16) (hk : k.length < 2 ^ 32)
    (hoff : p.Offset = ((fs.content p.file.ino).length : Int))
    (h : p.Write fs (NewRecord k v mark) = Except.ok (none, fs1, p1)) :
    (loggedRecord k v mark).WellFormed ∧
    fs1.content p.file.ino = fs.content p.file.ino ++ (loggedRecord k v mark).layout ∧
    p1 = { p with Offset := p.Offset + (((loggedRecord k v mark).layout.length : Nat) : Int) } := by
  obtain ⟨enc, n, henc, hwa, rfl⟩ := Write_ok _ _ _ _ _ _ h
  obtain ⟨_, hsize, h10⟩ := Encode_ok _ _ _ henc
  have hne : enc ≠ [] := by intro h; simp [h] at h10
  obtain ⟨_, _, hc, _, _⟩ := WriteAt_ok _ _ _ _ _ _ hwa hne
  have hks : k.length % 2 ^ 32 = k.length := Nat.mod_eq_of_lt hk
  have hvlt : v.length % 2 ^ 32 < 2 ^ 32 := Nat.mod_lt _ (by norm_num)
  have hvle : v.length % 2 ^ 32 ≤ v.length := Nat.mod_le _ _
  have hfit := Encode_fits _ _ _ henc
    (show (NewRecord k v mark).KeySize < 2 ^ 32 by simp only [NewRecord, hks]; exact hk)
    (show (NewRecord k v mark).ValueSize < 2 ^ 32 from hvlt)
  have htake := Encode_eq_take (NewRecord k v mark)
    (show (NewRecord k v mark).KeySize ≤ k.length by simp only [NewRecord, hks]; exact le_refl _)
    hvle hfit
  rw [henc] at htake
  simp only [Except.ok.injEq, Prod.mk.injEq, and_true] at htake
  have hlay : enc = (loggedRecord k v mark).layout := by
    rw [htake]
    simp only [NewRecord, loggedRecord, Record.layout, hks, List.take_length]
  have hwf : (loggedRecord k v mark).WellFormed := by
    refine ⟨rfl, ?_, hk, hvlt, hm⟩
    simp only [loggedRecord, List.length_take]
    omega
  refine ⟨hwf, ?_, ?_⟩
  · rw [hc, hoff, Int.toNat_ofNat, writeBytes_end, hlay]
  · rw [← hlay, hsize]

theorem Put_empty (fs fs1 : FS) (db db1 : MiniBitcask) (v : List Byte) (err : Option GoError)
    (h : db.Put fs [] v = Except.ok (err, fs1, db1)) : err = none ∧ fs1 = fs ∧ db1 = db := by
  simp only [MiniBitcask.Put, List.length_nil, if_true, pure, Except.pure, Except.ok.injEq,
    Prod.mk.injEq] at h
  exact ⟨h.1.symm, h.2.1.symm, h.2.2.symm⟩

/-- The invariant of the reachable states, over the records that were
appended: the log holds their layouts, the write offset is its length, and
the index holds for each key the start of its last record when that is a
PUT. -/
theorem Reachable_records (fs : FS) (db : MiniBitcask) (h : Reachable fs db) :
    ∃ dbf rs, db.dbFile = some dbf ∧ fs.content dbf.file.ino = logOf rs ∧
      (∀ r ∈ rs, r.WellFormed) ∧ dbf.Offset = ((logOf rs).length : Int) ∧
      ∀ k, db.indexes k = latestPut (withOffsets 0 rs) k := by
  induction h with
  | fresh hf =>
    obtain ⟨hidx, dbf, hdb, hoff, hc⟩ := hf
    exact ⟨dbf, [], hdb, by simpa [logOf] using hc, by simp, by simpa [logOf] using hoff,
      by intro k; simp [hidx, Index.empty, withOffsets, latestPut]⟩
  | @put fs fs1 db db1 k v _ hlen hput ih =>
    obtain ⟨dbf, rs, hdb, hc, hwf, hoff, hidx⟩ := ih
    by_cases hk : k = []
    · subst hk
      obtain ⟨_, rfl, rfl⟩ := Put_empty _ _ _ _ _ _ hput
      exact ⟨dbf, rs, hdb, hc, hwf, hoff, hidx⟩
    · obtain ⟨dbf', dbf1, hdb', hw, rfl⟩ := Put_ok fs fs1 db _ k v none hk hput
      rw [hdb] at hdb'
      simp only [Option.some.injEq] at hdb'
      subst hdb'
      obtain ⟨hwf', hc', rfl⟩ := Write_appends fs fs1 dbf _ k v PUT (by decide) hlen
        (by rw [hoff, hc]) hw
      refine ⟨_, rs ++ [loggedRecord k v PUT], rfl, ?_, ?_, ?_, ?_⟩
      · rw [logOf_append]; simpa [hc] using hc'
      · intro r hr
        rcases List.mem_append.mp hr with h1 | h1
        · exact hwf r h1
        · rw [List.mem_singleton.mp h1]; exact hwf'
      · rw [logOf_append, List.length_append]; simp only [hoff]; push_cast; rfl
      · intro k'
        rw [withOffsets_append rs _ 0 hwf, latestPut_append]
        simp only [Index.set, loggedRecord, Nat.zero_add, if_true]
        by_cases c : k' = k
        · subst c
          simp [hoff]
        · have c' : ¬ k = k' := fun e => c e.symm
          simp [c, c', hidx k']
  | @delete fs fs1 db db1 k _ hdel ih =>
    obtain ⟨dbf, rs, hdb, hc, hwf, hoff, hidx⟩ := ih
    cases hin : db.indexes k with
    | none =>
      rw [Delete_absent fs db k hin] at hdel
      simp only [Except.ok.injEq, Prod.mk.injEq, true_and] at hdel
      obtain ⟨rfl, rfl⟩ := hdel
      exact ⟨dbf, rs, hdb, hc, hwf, hoff, hidx⟩
    | some o =>
      by_cases hk : k = []
      · subst hk
        simp only [MiniBitcask.Delete, List.length_nil, if_true, pure, Except.pure,
          Except.ok.injEq, Prod.mk.injEq, true_and] at hdel
        obtain ⟨rfl, rfl⟩ := hdel
        exact ⟨dbf, rs, hdb, hc, hwf, hoff, hidx⟩
      · have hlen : k.length < 2 ^ 32 := by
          obtain ⟨e, he, hek⟩ := latestPut_mem _ k o (by rw [← hidx k]; exact hin)
          have hr := hwf e.2 (withOffsets_mem rs 0 e he)
          rw [← hek, ← hr.1]
          exact hr.2.2.1
        obtain ⟨dbf', dbf1, hdb', hw, rfl⟩ := Delete_ok fs fs1 db _ k o hk hin hdel
        rw [hdb] at hdb'
        simp only [Option.some.injEq] at hdb'
        subst hdb'
        obtain ⟨hwf', hc', rfl⟩ := Write_appends fs fs1 dbf _ k [] DEL (by decide) hlen
          (by rw [hoff, hc]) hw
        refine ⟨_, rs ++ [loggedRecord k [] DEL], rfl, ?_, ?_, ?_, ?_⟩
        · rw [logOf_append]; simpa [hc] using hc'
        · intro r hr
          rcases List.mem_append.mp hr with h1 | h1
          · exact hwf r h1
          · rw [List.mem_singleton.mp h1]; exact hwf'
        · rw [logOf_append, List.length_append]; simp only [hoff]; push_cast; rfl
        · intro k'
          rw [withOffsets_append rs _ 0 hwf, latestPut_append]
          simp only [Index.delete, loggedRecord]
          by_cases c : k' = k
          · subst c
            simp [DEL, PUT]
          · have c' : ¬ k = k' := fun e => c e.symm
            simp [c, c', hidx k']

/-- Whenever `Put` returns, the write offset has not decreased. -/
theorem Put_offset (fs fs1 : FS) (db db1 : MiniBitcask) (dbf : DBFile) (k v : List Byte)
    (err : Option GoError) (hdb : db.dbFile = some dbf)
    (h : db.Put fs k v = Except.ok (err, fs1, db1)) :
    ∃ dbf1, db1.dbFile = some dbf1 ∧ dbf.Offset ≤ dbf1.Offset := by
  by_cases hk : k = []
  · subst hk
    obtain ⟨_, _, rfl⟩ := Put_empty _ _ _ _ _ _ h
    exact ⟨dbf, hdb, le_refl _⟩
  · obtain ⟨dbf', dbf1, hdb', hw, rfl⟩ := Put_ok fs fs1 db _ k v err hk h
    rw [hdb] at hdb'
    simp only [Option.some.injEq] at hdb'
    subst hdb'
    obtain ⟨ho, hg⟩ := Write_offset _ _ _ _ _ _ hw
    exact ⟨dbf1, rfl, by omega⟩

/-- Whenever `Delete` returns, the write offset has not decreased. -/
theorem Delete_offset (fs fs1 : FS) (db db1 : MiniBitcask) (dbf : DBFile) (k : List Byte)
    (err : Option GoError) (hdb : db.dbFile = some dbf)
    (h : db.Delete fs k = Except.ok (err, fs1, db1)) :
    ∃ dbf1, db1.dbFile = some dbf1 ∧ dbf.Offset ≤ dbf1.Offset := by
  cases hin : db.indexes k with
  | none =>
    rw [Delete_absent fs db k hin] at h
    simp only [Except.ok.injEq, Prod.mk.injEq] at h
    obtain ⟨_, _, rfl⟩ := h
    exact ⟨dbf, hdb, le_refl _⟩
  | some o =>
    by_cases hk : k.length = 0
    · simp only [MiniBitcask.Delete, hk, if_true, pure, Except.pure, Except.ok.injEq,
        Prod.mk.injEq] at h
      obtain ⟨_, _, rfl⟩ := h
      exact ⟨dbf, hdb, le_refl _⟩
    · unfold MiniBitcask.Delete at h
      simp only [hk, if_false, MiniBitcask.exist, hin, hdb, deref, bind, Except.bind, pure,
        Except.pure] at h
      split at h
      · rename_i hh
        exact absurd hh (by simp)
      split at h
      · exact absurd h (by simp)
      rename_i w hw
      obtain ⟨e, fs', dbf1⟩ := w
      obtain ⟨ho, hg⟩ := Write_offset _ _ _ _ _ _ hw
      split at h
      · simp only [Except.ok.injEq, Prod.mk.injEq] at h
        obtain ⟨_, _, rfl⟩ := h
        exact ⟨dbf1, rfl, by omega⟩
      · simp only [Except.ok.injEq, Prod.mk.injEq] at h
        obtain ⟨_, _, rfl⟩ := h
        exact ⟨dbf1, rfl, by omega⟩

/-- C19 (as stated, refuted): `Put(bigKey, nil)` for a key of `2 ^ 32 + 1`
bytes succeeds on the store opened on an empty log and puts `bigKey` in the
index at offset 0, while the one record of the log has the 1-byte key `[0]`:
no record of the log has key `bigKey`. -/
theorem C19_index_counterexample :
    Fresh fsEmptyLog dbFresh ∧
    dbFresh.Put fsEmptyLog bigKey [] = Except.ok (none, fsBig, dbBig) ∧
    dbBig.indexes bigKey = some 0 ∧
    logRecords (fsBig.content 0)
      = [(0, { Key := [0], Value := [], KeySize := 1, ValueSize := 0, Mark := PUT })] ∧
    latestPut (logRecords (fsBig.content 0)) bigKey = none := by
  have hrec : logRecords (fsBig.content 0)
      = [(0, { Key := [0], Value := [], KeySize := 1, ValueSize := 0, Mark := PUT })] := by
    decide
  refine ⟨⟨rfl, dbfFresh, rfl, rfl, rfl⟩, Put_bigKey, ?_, hrec, ?_⟩
  · simp only [dbBig, Index.set, if_true]
  · rw [hrec]
    simp only [latestPut, List.foldl, if_neg (bigKey_ne_singleton 0)]

/-- C19 (amended): in every state reachable from a store opened on an empty
log by `Put` operations whose keys are shorter than `2 ^ 32` bytes and
`Delete` operations, all returning no error, the write offset equals the log
length; for
every key `k`, the index holds `k` if and only if the last record of the log
with key `k` has mark `PUT`, and then `indexes[k]` is the start offset of
that record, which is not negative and strictly less than the write offset;
and no `Put` or `Delete` that returns from such a state decreases the write
offset. -/
theorem C19_index_invariant (fs : FS) (db : MiniBitcask) (h : Reachable fs db) :
    ∃ dbf, db.dbFile = some dbf ∧
      dbf.Offset = ((fs.content dbf.file.ino).length : Int) ∧
      (∀ k, db.indexes k = latestPut (logRecords (fs.content dbf.file.ino)) k) ∧
      (∀ k o, db.indexes k = some o → 0 ≤ o ∧ o < dbf.Offset) ∧
      (∀ k v err fs1 db1, db.Put fs k v = Except.ok (err, fs1, db1) →
        ∃ dbf1, db1.dbFile = some dbf1 ∧ dbf.Offset ≤ dbf1.Offset) ∧
      (∀ k err fs1 db1, db.Delete fs k = Except.ok (err, fs1, db1) →
        ∃ dbf1, db1.dbFile = some dbf1 ∧ dbf.Offset ≤ dbf1.Offset) := by
  obtain ⟨dbf, rs, hdb, hc, hwf, hoff, hidx⟩ := Reachable_records fs db h
  refine ⟨dbf, hdb, by rw [hoff, hc], ?_, ?_, ?_, ?_⟩
  · intro k
    rw [hc, logRecords_logOf rs hwf]
    exact hidx k
  · intro k o hko
    rw [hidx k] at hko
    rw [hoff]
    exact latestPut_bound rs hwf k o hko
  · intro k v err fs1 db1 hput
    exact Put_offset fs fs1 db db1 dbf k v err hdb hput
  · intro k err fs1 db1 hdel
    exact Delete_offset fs fs1 db db1 dbf k err hdb hdel

theorem C19_index_invariant_witness :
    Reachable fsPutDel dbPutDel ∧
    ∃ dbf, dbPutDel.dbFile = some dbf ∧
      dbf.Offset = ((fsPutDel.content dbf.file.ino).length : Int) ∧
      (∀ k, dbPutDel.indexes k = latestPut (logRecords (fsPutDel.content dbf.file.ino)) k) ∧
      (∀ k o, dbPutDel.indexes k = some o → 0 ≤ o ∧ o < dbf.Offset) ∧
      (∀ k v err fs1 db1, dbPutDel.Put fsPutDel k v = Except.ok (err, fs1, db1) →
        ∃ dbf1, db1.dbFile = some dbf1 ∧ dbf.Offset ≤ dbf1.Offset) ∧
      (∀ k err fs1 db1, dbPutDel.Delete fsPutDel k = Except.ok (err, fs1, db1) →
        ∃ dbf1, db1.dbFile = some dbf1 ∧ dbf.Offset ≤ dbf1.Offset) :=
  have hreach : Reachable fsPutDel dbPutDel :=
    Reachable.delete [107]
      (Reachable.put [107] [97]
        (Reachable.fresh (show Fresh fsEmptyLog dbFresh from ⟨rfl, dbfFresh, rfl, rfl, rfl⟩))
        (by decide)
        (show dbFresh.Put fsEmptyLog [107] [97] = Except.ok (none, fsPut, dbPut) from rfl))
      rfl
  ⟨hreach, C19_index_invariant fsPutDel dbPutDel hreach⟩

/-! ## Put postcondition -/

/-- C12: for every store state whose write offset `o` equals the log length,
`Put` with an empty key returns no error and leaves file system and store
(log, write offset, index) unchanged, whatever the value; and every
`Put(k, v)` with non-empty `k` that returns no error leaves the log equal to
the old log followed by the bytes of `Encode(NewRecord(k, v, PUT))`, advances
the write offset by that record's size (the length of those bytes), sets
`indexes[k] = o` and leaves the index entry of every other key, and every
other file, unchanged. -/
theorem C12_put_postcondition (fs : FS) (db : MiniBitcask) (dbf : DBFile)
    (hdb : db.dbFile = some dbf)
    (hoff : dbf.Offset = ((fs.content dbf.file.ino).length : Int)) :
    (∀ v, db.Put fs [] v = Except.ok (none, fs, db)) ∧
    ∀ (k v : List Byte) (fs1 : FS) (db1 : MiniBitcask), k ≠ [] →
      db.Put fs k v = Except.ok (none, fs1, db1) →
      ∃ enc, (NewRecord k v PUT).Encode = Except.ok (enc, none) ∧
        fs1.content dbf.file.ino = fs.content dbf.file.ino ++ enc ∧
        (NewRecord k v PUT).GetSize = (enc.length : Int) ∧
        db1.dbFile = some { dbf with Offset := dbf.Offset + (NewRecord k v PUT).GetSize } ∧
        db1.indexes k = some dbf.Offset ∧
        (∀ k', k' ≠ k → db1.indexes k' = db.indexes k') ∧
        (∀ i, i ≠ dbf.file.ino → fs1.content i = fs.content i) ∧
        db1.dirPath = db.dirPath := by
  refine ⟨fun v => by simp [MiniBitcask.Put, pure, Except.pure], ?_⟩
  intro k v fs1 db1 hk hput
  obtain ⟨dbf', dbf1, hdb', hw, rfl⟩ := Put_ok fs fs1 db _ k v none hk hput
  rw [hdb] at hdb'
  simp only [Option.some.injEq] at hdb'
  subst hdb'
  obtain ⟨enc, n, henc, hwa, rfl⟩ := Write_ok _ _ _ _ _ _ hw
  obtain ⟨_, hlen, h10⟩ := Encode_ok _ _ _ henc
  have hne : enc ≠ [] := by intro h; simp [h] at h10
  obtain ⟨_, _, hc, hothers, _⟩ := WriteAt_ok _ _ _ _ _ _ hwa hne
  refine ⟨enc, henc, ?_, hlen.symm, rfl, by simp [Index.set], ?_, hothers, rfl⟩
  · rw [hc, hoff, Int.toNat_ofNat, writeBytes_end]
  · intro k' hk'
    simp [Index.set, hk']

theorem C12_put_postcondition_witness :
    dbFresh.dbFile = some dbfFresh ∧
    dbfFresh.Offset = ((fsEmptyLog.content dbfFresh.file.ino).length : Int) ∧
    ([107] : List Byte) ≠ [] ∧
    dbFresh.Put fsEmptyLog [107] [97] = Except.ok (none, fsPut, dbPut) ∧
    dbFresh.Put fsEmptyLog [] [97] = Except.ok (none, fsEmptyLog, dbFresh) ∧
    ∃ enc, (NewRecord [107] [97] PUT).Encode = Except.ok (enc, none) ∧
      fsPut.content dbfFresh.file.ino = fsEmptyLog.content dbfFresh.file.ino ++ enc ∧
      (NewRecord [107] [97] PUT).GetSize = (enc.length : Int) ∧
      dbPut.dbFile = some
        { dbfFresh with Offset := dbfFresh.Offset + (NewRecord [107] [97] PUT).GetSize } ∧
      dbPut.indexes [107] = some dbfFresh.Offset ∧
      (∀ k', k' ≠ [107] → dbPut.indexes k' = dbFresh.indexes k') ∧
      (∀ i, i ≠ dbfFresh.file.ino → fsPut.content i = fsEmptyLog.content i) ∧
      dbPut.dirPath = dbFresh.dirPath :=
  ⟨rfl, rfl, by decide, rfl,
    (C12_put_postcondition fsEmptyLog dbFresh dbfFresh rfl rfl).1 [97],
    (C12_put_postcondition fsEmptyLog dbFresh dbfFresh rfl rfl).2 [107] [97] fsPut dbPut
      (by decide) rfl⟩

/-! ## Merge -/

/-- Whenever the scan of `Merge` returns, whatever the store and the pool,
it has collected nothing: the valid entries are the ones it started with,
and index and directory are untouched. -/
theorem mergeScan_collects_nothing (fs : FS) (fuel : Nat) (db db1 : MiniBitcask) (off : Int)
    (acc ve : List Record) (err : Option GoError)
    (h : MiniBitcask.mergeScan fs fuel db off acc = Except.ok (some (err, db1, ve))) :
    ve = acc ∧ db1.indexes = db.indexes ∧ db1.dirPath = db.dirPath := by
  cases fuel with
  | zero => simp [MiniBitcask.mergeScan, pure, Except.pure] at h
  | succ n =>
    unfold MiniBitcask.mergeScan at h
    simp only [bind, Except.bind, pure, Except.pure] at h
    cases hdb : db.dbFile with
    | none => simp [hdb, deref, throw, throwThe, MonadExceptOf.throw] at h
    | some p =>
      simp only [hdb, deref, pure, Except.pure] at h
      cases hr : p.Read fs off with
      | error e => simp [hr] at h
      | ok w =>
        obtain ⟨⟨r, e⟩, p1⟩ := w
        obtain ⟨rfl, he⟩ := Read_no_record fs p p1 off r e hr
        simp only [hr, he, if_true] at h
        split at h
        · simp only [Except.ok.injEq, Option.some.injEq, Prod.mk.injEq] at h
          obtain ⟨_, rfl, rfl⟩ := h
          exact ⟨rfl, rfl, rfl⟩
        · simp only [Except.ok.injEq, Option.some.injEq, Prod.mk.injEq] at h
          obtain ⟨_, rfl, rfl⟩ := h
          exact ⟨rfl, rfl, rfl⟩

/-- With no valid entry the locked part of `Merge` leaves the index as it
is. -/
theorem mergeLocked_nil_index (fs fs1 : FS) (db db1 : MiniBitcask) (m : DBFile)
    (err : Option GoError) (h : db.mergeLocked fs m [] = Except.ok (err, fs1, db1)) :
    db1.indexes = db.indexes := by
  unfold MiniBitcask.mergeLocked at h
  simp only [MiniBitcask.mergeWrite, bind, Except.bind, pure, Except.pure, Option.isSome_none,
    Bool.false_eq_true, if_false] at h
  cases hdb : db.dbFile with
  | none => simp [hdb, deref, throw, throwThe, MonadExceptOf.throw] at h
  | some dbf =>
    simp only [hdb, deref, pure, Except.pure] at h
    split at h
    · simp only [Except.ok.injEq, Prod.mk.injEq] at h
      rw [← h.2.2]
    · simp only [Except.ok.injEq, Prod.mk.injEq] at h
      rw [← h.2.2]

/-- Whenever `Merge` returns, whatever the store and the pool, the index is
the one it started with: the scan collects no entry, so the rewrite loop
appends nothing to the merge file and sets no offset. -/
theorem Merge_keeps_index (fs fs1 : FS) (db db1 : MiniBitcask) (fuel : Nat)
    (err : Option GoError) (h : db.Merge fs fuel = Except.ok (some (err, fs1, db1))) :
    db1.indexes = db.indexes := by
  unfold MiniBitcask.Merge at h
  simp only [bind, Except.bind, pure, Except.pure] at h
  cases hdb : db.dbFile with
  | none => simp [hdb, deref, throw, throwThe, MonadExceptOf.throw] at h
  | some dbf =>
    simp only [hdb, deref, pure, Except.pure] at h
    split at h
    · simp only [Except.ok.injEq, Option.some.injEq, Prod.mk.injEq] at h
      rw [← h.2.2]
    · cases hs : MiniBitcask.mergeScan fs fuel db 0 [] with
      | error e => simp [hs] at h
      | ok w =>
        cases w with
        | none => simp [hs] at h
        | some w =>
          obtain ⟨e, db2, ve⟩ := w
          obtain ⟨rfl, hidx, _⟩ := mergeScan_collects_nothing fs fuel db db2 0 [] ve e hs
          simp only [hs] at h
          split at h
          · simp only [Except.ok.injEq, Option.some.injEq, Prod.mk.injEq] at h
            rw [← h.2.2, hidx]
          · split at h
            · simp only [Except.ok.injEq, Option.some.injEq, Prod.mk.injEq] at h
              rw [← h.2.2, hidx]
            · cases hm : (NewMergeDBFile fs db2.dirPath).2.1 with
              | none => simp [hm, deref, throw, throwThe, MonadExceptOf.throw] at h
              | some m =>
                simp only [hm, deref, pure, Except.pure] at h
                cases hl : db2.mergeLocked (NewMergeDBFile fs db2.dirPath).1 m [] with
                | error e2 => simp [hl] at h
                | ok r =>
                  obtain ⟨e3, fs3, db3⟩ := r
                  simp only [hl, Except.ok.injEq, Option.some.injEq, Prod.mk.injEq] at h
                  rw [← h.2.2, mergeLocked_nil_index _ _ _ _ _ _ hl, hidx]

end Bitcask
